import Mathlib

/-!
# Line protocol: encoder, decoder and query

A shallow embedding of the Go package `line_protocol`
(`line_protocol.go`, `encoder.go`, `decoder.go`, `query.go`).

Go strings and byte slices are sequences of bytes: they are modelled as
`List Byte` with `Byte = Fin 256`.  A Go `error` value is an `Option Error`
(`none` is `nil`).  Pointer out-parameters (`*ref = v`) are modelled by an
`Option` in the result: `some v` when the call stores `v`, `none` when it
stores nothing.
-/

namespace LineProtocol

/-- A byte of a Go string. -/
abbrev Byte := Fin 256

/-- The byte of an ASCII character. -/
def B (c : Char) : Byte := Fin.ofNat c.toNat

/-- The bytes of an ASCII string literal. -/
def str (s : String) : List Byte := s.toList.map B

/-- Constant `MaxKeyLength` of `line_protocol.go`. -/
def MaxKeyLength : Nat := 255

/-- Error values: the sentinels of `line_protocol.go`, the errors built in
`encoder.go` and `query.go`, and the errors of the library calls. -/
inductive Error where
  | ErrEmptyKey
  | ErrBroken
  | ErrBadKeyLength
  | ErrNotBool
  | ErrNotInteger
  | ErrNotString
  | ErrNotBytes
  | ErrNotObject
  | ErrInvalidQuote
  /-- `errors.Errorf("key %q contains one of char '='", k)` -/
  | keyContainsEq (k : List Byte)
  /-- `errors.Errorf("key length %q does not met length range requirement", k)` -/
  | keyLengthRange (k : List Byte)
  /-- `errors.Wrapf(err, "at field %s", key)` with `err` not nil -/
  | atField (e : Error) (k : List Byte)
  /-- `errors.Wrapf(err, "at offset %d", pos)` with `err` not nil -/
  | atOffset (e : Error) (pos : Nat)
  /-- `strconv.ErrSyntax` inside a `*strconv.NumError` -/
  | numSyntax
  /-- `strconv.ErrRange` inside a `*strconv.NumError` -/
  | numRange
  /-- `hex.InvalidByteError` -/
  | hexInvalidByte (b : Byte)
  /-- `hex.ErrLength` -/
  | hexLength
  /-- `base64.CorruptInputError` -/
  | base64Corrupt
  /-- an error of an external marshaller or one given by the caller -/
  | external (code : Nat)
  deriving DecidableEq, Repr

/-! ## Library functions used by the package -/

/-- Go `strings.IndexByte(s, c)` (and `strings.Index` with a separator of one
byte): the index of the first `c` in `s`; `none` stands for `-1`. -/
def indexByte (s : List Byte) (c : Byte) : Option Nat :=
  match s with
  | [] => none
  | x :: xs => if x = c then some 0 else (indexByte xs c).map (· + 1)

/-- Go `strings.Contains(s, sep)` with a separator of one byte. -/
def containsByte (s : List Byte) (c : Byte) : Bool :=
  (indexByte s c).isSome

/-- Go `strings.ContainsAny(s, chars)` for ASCII `chars`. -/
def containsAny (s : List Byte) (chars : List Byte) : Bool :=
  s.any (fun b => chars.contains b)

/-- Go `strings.HasPrefix(s, p)`. -/
def hasPrefix (s p : List Byte) : Bool :=
  p.length ≤ s.length && s.take p.length == p

/-- Table `hextable = "0123456789abcdef"` of `encoding/hex`, and the digits of
`strconv` restricted to base 16. -/
def hexDigit (n : Nat) : Byte :=
  if n < 10 then Fin.ofNat (48 + n) else Fin.ofNat (87 + n)

/-- What `hex.NewEncoder(w).Write(s)` writes to `w`: two digits per byte. -/
def hexEncode : List Byte → List Byte
  | [] => []
  | b :: bs => hexDigit (b.val / 16) :: hexDigit (b.val % 16) :: hexEncode bs

/-- Type `int64` is `Int` reduced to the range `[-2^63, 2^63)`: the result of
an `int64` operation whose mathematical value is `x`. -/
def wrapInt64 (x : Int) : Int := (x + 2 ^ 63) % 2 ^ 64 - 2 ^ 63

/-- Conversion `uint64(i)` of an `int64`. -/
def toUint64 (i : Int) : Nat := (i % 2 ^ 64).toNat

/-- Conversion `int64(u)` of a `uint64`. -/
def toInt64 (u : Nat) : Int := wrapInt64 (u : Int)

/-- The loop of `strconv.formatBits` for base 16,
`for u >= b { i--; a[i] = digits[u&m]; u >>= shift }; i--; a[i] = digits[u]`,
with `a` the part of the buffer already written.  A `uint64` has at most 16
digits, so the fuel 16 given by `formatBits` is never used up. -/
def formatBitsLoop : Nat → Nat → List Byte → List Byte
  | 0, u, a => hexDigit u :: a
  | fuel + 1, u, a =>
    if u ≥ 16 then formatBitsLoop fuel (u / 16) (hexDigit (u % 16) :: a)
    else hexDigit u :: a

/-- Go `strconv.formatBits(nil, u, 16, neg, false)`. -/
def formatBits (u : Nat) (neg : Bool) : List Byte :=
  let u := if neg then (2 ^ 64 - u) % 2 ^ 64 else u
  let a := formatBitsLoop 16 u []
  if neg then B '-' :: a else a

/-- Go `strconv.FormatUint(u, 16)`. -/
def FormatUint (u : Nat) : List Byte := formatBits u false

/-- Go `strconv.FormatInt(i, 16)`. -/
def FormatInt (i : Int) : List Byte := formatBits (toUint64 i) (decide (i < 0))

/-- Function `lower` of `strconv`: `c | ('x' - 'X')`. -/
def lower (c : Byte) : Nat := c.val ||| 32

/-- The digit value of a byte in the loop of `strconv.ParseUint`; `none` is the
`default` case of the switch (a syntax error). -/
def digitVal (c : Byte) : Option Nat :=
  if 48 ≤ c.val ∧ c.val ≤ 57 then some (c.val - 48)
  else if 97 ≤ lower c ∧ lower c ≤ 122 then some (lower c - 97 + 10)
  else none

/-- The loop of `strconv.ParseUint(s, 16, 64)` over the bytes of `s`, with `n`
the value read so far; `cutoff = maxUint64/16 + 1`, `maxVal = 1<<64 - 1`. -/
def parseUintLoop : List Byte → Nat → Nat × Option Error
  | [], n => (n, none)
  | c :: cs, n =>
    match digitVal c with
    | none => (0, some Error.numSyntax)
    | some d =>
      if d ≥ 16 then (0, some Error.numSyntax)
      else if n ≥ (2 ^ 64 - 1) / 16 + 1 then (2 ^ 64 - 1, some Error.numRange)
      else
        let n := (n * 16) % 2 ^ 64
        let n1 := (n + d) % 2 ^ 64
        if n1 < n ∨ n1 > 2 ^ 64 - 1 then (2 ^ 64 - 1, some Error.numRange)
        else parseUintLoop cs n1

/-- Go `strconv.ParseUint(s, 16, 64)`. -/
def ParseUint (s : List Byte) : Nat × Option Error :=
  if s = [] then (0, some Error.numSyntax) else parseUintLoop s 0

/-- Go `strconv.ParseInt(s, 16, 64)`. -/
def ParseInt (s : List Byte) : Int × Option Error :=
  match s with
  | [] => (0, some Error.numSyntax)
  | c :: cs =>
    let neg := decide (c = B '-')
    let s := if c = B '+' then cs else if c = B '-' then cs else c :: cs
    let (un, err) := ParseUint s
    if err ≠ none ∧ err ≠ some Error.numRange then (0, err)
    else if !neg ∧ un ≥ 2 ^ 63 then (2 ^ 63 - 1, some Error.numRange)
    else if neg ∧ un > 2 ^ 63 then (-(2 ^ 63), some Error.numRange)
    else
      let n := toInt64 un
      (if neg then wrapInt64 (-n) else n, none)

/-- Table `reverseHexTable` of `encoding/hex`: the value of a hex digit, and
`255` for every other byte. -/
def reverseHexTable (c : Byte) : Nat :=
  if 48 ≤ c.val ∧ c.val ≤ 57 then c.val - 48
  else if 97 ≤ c.val ∧ c.val ≤ 102 then c.val - 87
  else if 65 ≤ c.val ∧ c.val ≤ 70 then c.val - 55
  else 255

/-- Go `hex.DecodeString(s)`: the bytes decoded before the first error, and the
error. -/
def hexDecodeString : List Byte → List Byte × Option Error
  | [] => ([], none)
  | [p] =>
    if reverseHexTable p > 15 then ([], some (Error.hexInvalidByte p))
    else ([], some Error.hexLength)
  | p :: q :: rest =>
    if reverseHexTable p > 15 then ([], some (Error.hexInvalidByte p))
    else if reverseHexTable q > 15 then ([], some (Error.hexInvalidByte q))
    else
      let r := hexDecodeString rest
      (Fin.ofNat (reverseHexTable p * 16 + reverseHexTable q) :: r.1, r.2)

/-- Alphabet `encodeURL` of `encoding/base64`:
`A-Z`, `a-z`, `0-9`, `-`, `_`. -/
def b64Char (n : Nat) : Byte :=
  if n < 26 then Fin.ofNat (65 + n)
  else if n < 52 then Fin.ofNat (71 + n)
  else if n < 62 then Fin.ofNat (n - 4)
  else if n = 62 then B '-'
  else B '_'

/-- What `base64.NewEncoder(base64.URLEncoding, w)` has written to `w` after
`Write(s)` and `Close()`: `base64.URLEncoding.Encode`, three bytes to four
characters, the last group padded with `=`. -/
def base64Encode : List Byte → List Byte
  | [] => []
  | [a] =>
    let val := a.val * 65536
    [b64Char (val / 262144 % 64), b64Char (val / 4096 % 64), B '=', B '=']
  | [a, b] =>
    let val := a.val * 65536 + b.val * 256
    [b64Char (val / 262144 % 64), b64Char (val / 4096 % 64), b64Char (val / 64 % 64), B '=']
  | a :: b :: c :: rest =>
    let val := a.val * 65536 + b.val * 256 + c.val
    b64Char (val / 262144 % 64) :: b64Char (val / 4096 % 64) :: b64Char (val / 64 % 64)
      :: b64Char (val % 64) :: base64Encode rest

/-- Table `decodeMap` of `base64.URLEncoding`: the index of a character of the
alphabet, and `255` for every other byte. -/
def b64DecodeMap (c : Byte) : Nat :=
  if 65 ≤ c.val ∧ c.val ≤ 90 then c.val - 65
  else if 97 ≤ c.val ∧ c.val ≤ 122 then c.val - 71
  else if 48 ≤ c.val ∧ c.val ≤ 57 then c.val + 4
  else if c = B '-' then 62
  else if c = B '_' then 63
  else 255

/-- The loops `for si < len(src) && (src[si] == '\n' || src[si] == '\r') { si++ }`
of `decodeQuantum`. -/
def skipNewlines : List Byte → List Byte
  | [] => []
  | c :: cs => if c = 10 ∨ c = 13 then skipNewlines cs else c :: cs

/-- The end of `decodeQuantum`: the `dlen - 1` bytes of the quantum whose
6-bit values are `dbuf` (missing ones are zero). -/
def quantumBytes (dbuf : List Nat) (dlen : Nat) : List Byte :=
  let val := dbuf.getD 0 0 * 262144 + dbuf.getD 1 0 * 4096 + dbuf.getD 2 0 * 64 + dbuf.getD 3 0
  ([Fin.ofNat (val / 65536), Fin.ofNat (val / 256), Fin.ofNat val] : List Byte).take (dlen - 1)

/-- Function `decodeQuantum` of `encoding/base64` for the padded URL encoding:
from the rest of the input, the rest after the quantum, the bytes decoded and
the error.  `j` counts the characters of the quantum read so far and `dbuf`
holds their values. -/
def decodeQuantum : List Byte → Nat → List Nat → List Byte × List Byte × Option Error
  | [], j, _ =>
    if j = 0 then ([], [], none) else ([], [], some Error.base64Corrupt)
  | c :: rest, j, dbuf =>
    if b64DecodeMap c ≠ 255 then
      if j + 1 = 4 then (rest, quantumBytes (dbuf ++ [b64DecodeMap c]) 4, none)
      else decodeQuantum rest (j + 1) (dbuf ++ [b64DecodeMap c])
    else if c = 10 ∨ c = 13 then decodeQuantum rest j dbuf
    else if c ≠ B '=' then (rest, [], some Error.base64Corrupt)
    else if j = 0 ∨ j = 1 then (rest, [], some Error.base64Corrupt)
    else if j = 2 then
      match skipNewlines rest with
      | [] => ([], [], some Error.base64Corrupt)
      | c2 :: rest2 =>
        if c2 ≠ B '=' then (c2 :: rest2, [], some Error.base64Corrupt)
        else
          let rest3 := skipNewlines rest2
          (rest3, quantumBytes dbuf j, if rest3 ≠ [] then some Error.base64Corrupt else none)
    else
      let rest3 := skipNewlines rest
      (rest3, quantumBytes dbuf j, if rest3 ≠ [] then some Error.base64Corrupt else none)

/-- The loop of `base64.URLEncoding.Decode`, one quantum at a time (the fast
paths of the library decode the same quanta eight or four characters at a
time); every quantum reads at least one character of a non-empty input, so
the fuel `len(src)` given by `base64Decode` is never used up. -/
def base64DecodeLoop : Nat → List Byte → List Byte × Option Error
  | 0, _ => ([], none)
  | fuel + 1, src =>
    if src = [] then ([], none)
    else
      let (rest, out, err) := decodeQuantum src 0 []
      if err ≠ none then (out, err)
      else
        let r := base64DecodeLoop fuel rest
        (out ++ r.1, r.2)

/-- Go `base64.URLEncoding.Decode(dst, src)` with `dst` of length
`DecodedLen(len(src))`: the bytes `dst[:n]` and the error. -/
def base64Decode (src : List Byte) : List Byte × Option Error :=
  base64DecodeLoop src.length src

/-- Function `errors.Wrapf(err, ...)` of `github.com/pkg/errors`: `nil` when
`err` is `nil`, else `err` wrapped with the message (`wrap`). -/
def Wrapf (err : Option Error) (wrap : Error → Error) : Option Error :=
  match err with
  | none => none
  | some e => some (wrap e)

/-- What the code uses of `float64` and of the `strconv` functions on it. -/
structure FloatOps (F : Type) where
  /-- `f < 0` -/
  ltZero : F → Bool
  /-- `-f` -/
  neg : F → F
  /-- `strconv.FormatFloat(f, 'f', precision, 64)` -/
  FormatFloat : F → Int → List Byte
  /-- `strconv.ParseFloat(s, 64)` -/
  ParseFloat : List Byte → F × Option Error

/-! ## encoder.go -/

/-- Struct `lineProtocolEncoder`; `buf` is the content of the `bytes.Buffer`
and `hexBuf` tells whether the hex encoder has been created (is not nil). -/
structure lineProtocolEncoder where
  buf : List Byte
  prev : Bool
  hexBuf : Bool
  Err : Option Error
  deriving DecidableEq, Repr

/-- Go `NewEncoder()` -/
def NewEncoder : lineProtocolEncoder :=
  { buf := [], prev := false, hexBuf := false, Err := none }

namespace lineProtocolEncoder

/-- Go `Error()` -/
def Error (l : lineProtocolEncoder) : Option Error := l.Err

/-- Go `Final()`: the string, or the value it panics with. -/
def Final (l : lineProtocolEncoder) : Except LineProtocol.Error (List Byte) :=
  match l.Err with
  | some e => Except.error e
  | none => Except.ok l.buf

/-- Go `emitErrAtField(err, key)` -/
def emitErrAtField (l : lineProtocolEncoder) (err : LineProtocol.Error) (key : List Byte) :
    lineProtocolEncoder :=
  if l.Err = none then { l with Err := Wrapf (some err) (fun e => Error.atField e key) } else l

/-- Go `checkState(k)`: the result and the encoder after the call. -/
def checkState (l : lineProtocolEncoder) (k : List Byte) : Bool × lineProtocolEncoder :=
  if l.Err ≠ none then (false, l)
  else if containsByte k (B '=') then (false, { l with Err := some (Error.keyContainsEq k) })
  else if k.length > MaxKeyLength ∨ k.length = 0 then
    (false, { l with Err := some (Error.keyLengthRange k) })
  else (true, l)

/-- Go `l.buf.WriteString(s)` -/
def bufWriteString (l : lineProtocolEncoder) (s : List Byte) : lineProtocolEncoder :=
  { l with buf := l.buf ++ s }

/-- Go `writeHex(s)` -/
def writeHex (l : lineProtocolEncoder) (s : List Byte) : lineProtocolEncoder :=
  let l := if l.hexBuf = false then { l with hexBuf := true } else l
  { l with buf := l.buf ++ hexEncode s }

/-- Go `writeBase64(s)` -/
def writeBase64 (l : lineProtocolEncoder) (s : List Byte) : lineProtocolEncoder :=
  { l with buf := l.buf ++ base64Encode s }

/-- Go `writeQuotedString(s)` -/
def writeQuotedString (l : lineProtocolEncoder) (s : List Byte) : lineProtocolEncoder :=
  let l :=
    if containsAny s (str "\";") then (l.bufWriteString (str "h\"")).writeHex s
    else (l.bufWriteString (str "\"")).bufWriteString s
  l.bufWriteString (str "\"")

/-- Go `writeQuotedBytes(s)` -/
def writeQuotedBytes (l : lineProtocolEncoder) (s : List Byte) : lineProtocolEncoder :=
  ((l.bufWriteString (str "b'")).writeBase64 s).bufWriteString (str "'")

/-- Go `writeColon()` -/
def writeColon (l : lineProtocolEncoder) : lineProtocolEncoder :=
  if l.prev then l.bufWriteString (str ";") else { l with prev := true }

/-- Go `WriteJson(key, s)`, with `b` the result of `json.Marshal(s)`: the error
returned and the encoder after the call. -/
def WriteJson (l : lineProtocolEncoder) (key : List Byte)
    (b : Except LineProtocol.Error (List Byte)) : Option LineProtocol.Error × lineProtocolEncoder :=
  let (ok, l) := l.checkState key
  if !ok then (l.Err, l)
  else
    match b with
    | Except.error err => (some err, l.emitErrAtField err key)
    | Except.ok b =>
      (none, (((l.writeColon).bufWriteString key).bufWriteString (str "=")).writeQuotedBytes b)

/-- Go `WriteProto(key, s)`, with `b` the result of `protojson.Marshal(s)`: the
error returned and the encoder after the call. -/
def WriteProto (l : lineProtocolEncoder) (key : List Byte)
    (b : Except LineProtocol.Error (List Byte)) : Option LineProtocol.Error × lineProtocolEncoder :=
  let (ok, l) := l.checkState key
  if !ok then (l.Err, l)
  else
    match b with
    | Except.error err => (some err, l.emitErrAtField err key)
    | Except.ok b =>
      (none, (((l.writeColon).bufWriteString key).bufWriteString (str "=")).writeQuotedBytes b)

/-- Go `WriteBool(key, s)` -/
def WriteBool (l : lineProtocolEncoder) (key : List Byte) (s : Bool) : lineProtocolEncoder :=
  let (ok, l) := l.checkState key
  if !ok then l
  else
    let l := ((l.writeColon).bufWriteString key).bufWriteString (str "=")
    if s then l.bufWriteString (str "1") else l.bufWriteString (str "0")

/-- Go `WriteString(key, s)` -/
def WriteString (l : lineProtocolEncoder) (key : List Byte) (s : List Byte) :
    lineProtocolEncoder :=
  let (ok, l) := l.checkState key
  if !ok then l
  else (((l.writeColon).bufWriteString key).bufWriteString (str "=")).writeQuotedString s

/-- Go `WriteBytes(key, s)` -/
def WriteBytes (l : lineProtocolEncoder) (key : List Byte) (s : List Byte) :
    lineProtocolEncoder :=
  let (ok, l) := l.checkState key
  if !ok then l
  else (((l.writeColon).bufWriteString key).bufWriteString (str "=")).writeQuotedBytes s

/-- Go `WriteInt64(key, i)`; `-i` is an `int64` negation. -/
def WriteInt64 (l : lineProtocolEncoder) (key : List Byte) (i : Int) : lineProtocolEncoder :=
  let (ok, l) := l.checkState key
  if !ok then l
  else
    let l := (l.writeColon).bufWriteString key
    if i < 0 then (l.bufWriteString (str "=-0x")).bufWriteString (FormatInt (wrapInt64 (-i)))
    else (l.bufWriteString (str "=0x")).bufWriteString (FormatInt i)

/-- Go `WriteUint64(key, ui)` -/
def WriteUint64 (l : lineProtocolEncoder) (key : List Byte) (ui : Nat) : lineProtocolEncoder :=
  let (ok, l) := l.checkState key
  if !ok then l
  else (((l.writeColon).bufWriteString key).bufWriteString (str "=0x")).bufWriteString
    (FormatUint ui)

/-- Go `WriteFloat64(key, f, precision)` -/
def WriteFloat64 {F : Type} (ops : FloatOps F) (l : lineProtocolEncoder) (key : List Byte)
    (f : F) (precision : Int) : lineProtocolEncoder :=
  let (ok, l) := l.checkState key
  if !ok then l
  else
    let l := (l.writeColon).bufWriteString key
    if ops.ltZero f then
      (l.bufWriteString (str "=-f")).bufWriteString (ops.FormatFloat (ops.neg f) precision)
    else (l.bufWriteString (str "=f")).bufWriteString (ops.FormatFloat f precision)

end lineProtocolEncoder

/-! ## decoder.go -/

/-- Struct `lineProtocolDecoder`. -/
structure lineProtocolDecoder where
  reading : List Byte
  Err : Option Error
  lastField : List Byte
  deriving DecidableEq, Repr

/-- Go `NewDecoder(s)` -/
def NewDecoder (s : List Byte) : lineProtocolDecoder :=
  { reading := s, Err := none, lastField := [] }

/-- The outcome of a call with an out-parameter: the boolean returned, the
value stored through the pointer (`none`: nothing is stored), and the decoder
after the call. -/
structure Read (α : Type) where
  ok : Bool
  out : Option α
  dec : lineProtocolDecoder
  deriving DecidableEq, Repr

namespace lineProtocolDecoder

/-- Go `WithError(err)` -/
def WithError (l : lineProtocolDecoder) (err : Option LineProtocol.Error) :
    Bool × lineProtocolDecoder :=
  match err with
  | some e => (false, if l.Err = none then { l with Err := some e } else l)
  | none => (decide (l.Err = none), l)

/-- Go `Error()` -/
def Error (l : lineProtocolDecoder) : Option LineProtocol.Error := l.Err

/-- Go `hintErr(err)` -/
def hintErr (l : lineProtocolDecoder) (err : Option LineProtocol.Error) :
    Option LineProtocol.Error :=
  if err ≠ none then none
  else Wrapf err (fun e => Error.atField e l.lastField)

/-- Go `withHintError(err)` -/
def withHintError (l : lineProtocolDecoder) (err : Option LineProtocol.Error) :
    Bool × lineProtocolDecoder :=
  l.WithError (l.hintErr err)

/-- Go `eatOptionalComma()` -/
def eatOptionalComma (l : lineProtocolDecoder) : Bool × lineProtocolDecoder :=
  match l.reading with
  | [] => (true, l)
  | c :: rest =>
    if c ≠ B ';' then l.withHintError (some Error.ErrBroken)
    else (true, { l with reading := rest })

/-- Go `bytesField(quote)` with `quote` a string of one byte: the slice returned
(`nil` is the empty list), the boolean returned, and the decoder after the
call. -/
def bytesField (l : lineProtocolDecoder) (quote : Byte) :
    List Byte × Bool × lineProtocolDecoder :=
  if l.Err ≠ none then ([], false, l)
  else
    let (fmtHint, l) : Nat × lineProtocolDecoder :=
      match l.reading with
      | [] => (0, l)
      | c :: rest =>
        if c = B 'h' ∨ c = B 'b' then (c.val, { l with reading := rest }) else (0, l)
    if !hasPrefix l.reading [quote] then
      let r := l.withHintError (some Error.ErrInvalidQuote)
      ([], r.1, r.2)
    else
      let l := { l with reading := l.reading.drop 1 }
      match indexByte l.reading quote with
      | none =>
        let r := l.withHintError (some Error.ErrInvalidQuote)
        ([], r.1, r.2)
      | some fieldEnd =>
        let (resBytes, err) : List Byte × Option LineProtocol.Error :=
          if fmtHint ≠ 0 then
            if fmtHint = (B 'h').val then hexDecodeString (l.reading.take fieldEnd)
            else base64Decode (l.reading.take fieldEnd)
          else (l.reading.take fieldEnd, none)
        if err ≠ none then
          let r := l.withHintError err
          ([], r.1, r.2)
        else
          let l := { l with reading := l.reading.drop (fieldEnd + 1) }
          let r := l.eatOptionalComma
          if !r.1 then ([], false, r.2)
          else (resBytes, true, r.2)

/-- Go `Next(key)` -/
def Next (l : lineProtocolDecoder) : Read (List Byte) :=
  if l.Err ≠ none then ⟨false, none, l⟩
  else
    match indexByte l.reading (B '=') with
    | none => ⟨false, none, l⟩
    | some firstIndex =>
      if firstIndex > MaxKeyLength then
        let r := l.withHintError (some Error.ErrBroken)
        ⟨r.1, none, r.2⟩
      else
        let l := { l with lastField := l.reading.take firstIndex }
        ⟨true, some l.lastField, { l with reading := l.reading.drop (firstIndex + 1) }⟩

/-- Go `BoolField(ref)` -/
def BoolField (l : lineProtocolDecoder) : Read Bool :=
  if l.Err ≠ none then ⟨false, none, l⟩
  else
    match l.reading with
    | [] =>
      let r := l.withHintError (some Error.ErrNotBool)
      ⟨r.1, none, r.2⟩
    | c :: rest =>
      if c = B '1' ∨ c = B '0' then
        let res := decide (c = B '1')
        let r := ({ l with reading := rest } : lineProtocolDecoder).eatOptionalComma
        if !r.1 then ⟨false, none, r.2⟩
        else ⟨true, some res, r.2⟩
      else
        let r := l.withHintError (some Error.ErrNotBool)
        ⟨r.1, none, r.2⟩

/-- Go `Int64Field(ref)`; `-res` is an `int64` negation. -/
def Int64Field (l : lineProtocolDecoder) : Read Int :=
  if l.Err ≠ none then ⟨false, none, l⟩
  else
    let isNeg := decide (l.reading.length > 0 ∧ l.reading.head? = some (B '-'))
    let l := if isNeg then { l with reading := l.reading.drop 1 } else l
    if !hasPrefix l.reading (str "0x") then
      let r := l.withHintError (some Error.ErrNotInteger)
      ⟨r.1, none, r.2⟩
    else
      let l := { l with reading := l.reading.drop 2 }
      let numEnd := (indexByte l.reading (B ';')).getD l.reading.length
      let (res, err) := ParseInt (l.reading.take numEnd)
      if err ≠ none then
        let r := l.withHintError err
        ⟨r.1, none, r.2⟩
      else
        let l :=
          if numEnd < l.reading.length then { l with reading := l.reading.drop (numEnd + 1) }
          else { l with reading := [] }
        if isNeg then ⟨true, some (wrapInt64 (-res)), l⟩
        else ⟨true, some res, l⟩

/-- Go `Float64Field(ref)`; `none` is the run-time panic of the slice expression
`l.reading[2:]` when `l.reading` has fewer than two bytes. -/
def Float64Field {F : Type} (ops : FloatOps F) (l : lineProtocolDecoder) : Option (Read F) :=
  if l.Err ≠ none then some ⟨false, none, l⟩
  else
    let isNeg := decide (l.reading.length > 0 ∧ l.reading.head? = some (B '-'))
    let l := if isNeg then { l with reading := l.reading.drop 1 } else l
    if !hasPrefix l.reading (str "f") then
      let r := l.withHintError (some Error.ErrNotInteger)
      some ⟨r.1, none, r.2⟩
    else if l.reading.length < 2 then none
    else
      let l := { l with reading := l.reading.drop 2 }
      let numEnd := (indexByte l.reading (B ';')).getD l.reading.length
      let (res, err) := ops.ParseFloat (l.reading.take numEnd)
      if err ≠ none then
        let r := l.withHintError err
        some ⟨r.1, none, r.2⟩
      else
        let l :=
          if numEnd < l.reading.length then { l with reading := l.reading.drop (numEnd + 1) }
          else { l with reading := [] }
        if isNeg then some ⟨true, some (ops.neg res), l⟩
        else some ⟨true, some res, l⟩

/-- Go `Uint64Field(ref)` -/
def Uint64Field (l : lineProtocolDecoder) : Read Nat :=
  if l.Err ≠ none then ⟨false, none, l⟩
  else if !hasPrefix l.reading (str "0x") then
    let r := l.withHintError (some Error.ErrNotInteger)
    ⟨r.1, none, r.2⟩
  else
    let l := { l with reading := l.reading.drop 2 }
    let numEnd := (indexByte l.reading (B ';')).getD l.reading.length
    let (res, err) := ParseUint (l.reading.take numEnd)
    if err ≠ none then
      let r := l.withHintError err
      ⟨r.1, none, r.2⟩
    else
      let l :=
        if numEnd < l.reading.length then { l with reading := l.reading.drop (numEnd + 1) }
        else { l with reading := [] }
      ⟨true, some res, l⟩

/-- Go `StringField(ref)` -/
def StringField (l : lineProtocolDecoder) : Read (List Byte) :=
  let (resBytes, ok, l) := l.bytesField (B '"')
  if !ok then
    let r := l.withHintError (some Error.ErrNotString)
    ⟨r.1, none, r.2⟩
  else ⟨true, some resBytes, l⟩

/-- Go `BytesField(ref)` -/
def BytesField (l : lineProtocolDecoder) : Read (List Byte) :=
  let (resBytes, ok, l) := l.bytesField 39
  if !ok then
    let r := l.withHintError (some Error.ErrNotBytes)
    ⟨r.1, none, r.2⟩
  else ⟨true, some resBytes, l⟩

end lineProtocolDecoder

/-! ## query.go -/

/-- A Go `map[string]string`: its entries, one per key. -/
abbrev FieldMap := List (List Byte × List Byte)

/-- Map assignment `m[k] = v`: the entry of `k` is overwritten if there is
one, else an entry is added. -/
def mapSet : FieldMap → List Byte → List Byte → FieldMap
  | [], k, v => [(k, v)]
  | (k0, v0) :: m, k, v => if k0 = k then (k0, v) :: m else (k0, v0) :: mapSet m k v

/-- Map lookup `v, ok := m[k]`. -/
def mapGet : FieldMap → List Byte → Option (List Byte)
  | [], _ => none
  | (k0, v0) :: m, k => if k0 = k then some v0 else mapGet m k

/-- Struct `lineProtocolQuery`. -/
structure lineProtocolQuery where
  d : lineProtocolDecoder
  fields : FieldMap
  deriving DecidableEq, Repr

namespace lineProtocolQuery

/-- Go `Error()` -/
def Error (l : lineProtocolQuery) : Option LineProtocol.Error := l.d.Err

/-- Go `Fields()` -/
def Fields (l : lineProtocolQuery) : FieldMap := l.fields

/-- Go `hintErr(err, pos)` -/
def hintErr (l : lineProtocolQuery) (err : LineProtocol.Error) (pos : Nat) : lineProtocolQuery :=
  { l with d := { l.d with Err := Wrapf (some err) (fun e => Error.atOffset e pos) } }

/-- The loop `for off < len(s) { ... }` of `Load`.  Every turn of the loop that
does not leave it moves `off` forward, so the fuel `len(s)` given by `Load`
is never used up. -/
def loadLoop (s : List Byte) : Nat → Nat → lineProtocolQuery → lineProtocolQuery
  | 0, _, l => l
  | fuel + 1, off, l =>
    if off < s.length then
      match indexByte (s.drop off) (B '=') with
      | none => l.hintErr Error.ErrBroken off
      | some i =>
        let key := (s.drop off).take i
        let off := off + (i + 1)
        if key.length = 0 ∨ key.length > MaxKeyLength then l.hintErr Error.ErrBadKeyLength off
        else
          match indexByte (s.drop off) (B ';') with
          | some i =>
            let value := (s.drop off).take i
            loadLoop s fuel (off + (i + 1)) { l with fields := mapSet l.fields key value }
          | none =>
            let value := s.drop off
            loadLoop s fuel s.length { l with fields := mapSet l.fields key value }
    else l

/-- Go `Load(s)`: the result and the query after the call. -/
def Load (l : lineProtocolQuery) (s : List Byte) : Bool × lineProtocolQuery :=
  let l := { l with fields := [] }
  let l := { l with d := { l.d with Err := none } }
  let l := loadLoop s s.length 0 l
  (decide (l.d.Err = none), l)

/-- Go `RawField(k, v)`: the result and the value stored in `v`. -/
def RawField (l : lineProtocolQuery) (k : List Byte) : Bool × Option (List Byte) :=
  if l.d.Err ≠ none then (false, none)
  else
    match mapGet l.fields k with
    | some s => (true, some s)
    | none => (false, none)

/-- Go `locate(k)` -/
def locate (l : lineProtocolQuery) (k : List Byte) : Bool × lineProtocolQuery :=
  match l.RawField k with
  | (true, some rv) => (true, { l with d := { l.d with lastField := k, reading := rv } })
  | _ => (false, l)

/-- Go `terminated()`; the value of `l.d.hintErr(ErrBroken)` is dropped. -/
def terminated (l : lineProtocolQuery) : Bool :=
  if l.d.reading.length > 0 then false else true

/-- The shape `l.locate(k) && l.d.XField(v) && l.terminated()` of the typed
lookups, with `read` the method of the decoder: the boolean returned, the value
stored in `v`, and the query after the call. -/
def lookup {α : Type} (read : lineProtocolDecoder → Read α) (l : lineProtocolQuery)
    (k : List Byte) : Bool × Option α × lineProtocolQuery :=
  let (found, l) := l.locate k
  if !found then (false, none, l)
  else
    let r := read l.d
    let l := { l with d := r.dec }
    if !r.ok then (false, r.out, l)
    else (l.terminated, r.out, l)

/-- Go `Int64Field(k, v)` -/
def Int64Field (l : lineProtocolQuery) (k : List Byte) : Bool × Option Int × lineProtocolQuery :=
  lookup lineProtocolDecoder.Int64Field l k

/-- Go `Uint64Field(k, v)` -/
def Uint64Field (l : lineProtocolQuery) (k : List Byte) : Bool × Option Nat × lineProtocolQuery :=
  lookup lineProtocolDecoder.Uint64Field l k

/-- Go `StringField(k, v)` -/
def StringField (l : lineProtocolQuery) (k : List Byte) :
    Bool × Option (List Byte) × lineProtocolQuery :=
  lookup lineProtocolDecoder.StringField l k

/-- Go `BytesField(k, v)` -/
def BytesField (l : lineProtocolQuery) (k : List Byte) :
    Bool × Option (List Byte) × lineProtocolQuery :=
  lookup lineProtocolDecoder.BytesField l k

/-- Go `BoolField(k, v)` -/
def BoolField (l : lineProtocolQuery) (k : List Byte) : Bool × Option Bool × lineProtocolQuery :=
  lookup lineProtocolDecoder.BoolField l k

/-- Go `Float64Field(k, v)`; `none` is the panic of the decoder's
`Float64Field`. -/
def Float64Field {F : Type} (ops : FloatOps F) (l : lineProtocolQuery) (k : List Byte) :
    Option (Bool × Option F × lineProtocolQuery) :=
  let (found, l) := l.locate k
  if !found then some (false, none, l)
  else
    match l.d.Float64Field ops with
    | none => none
    | some r =>
      let l := { l with d := r.dec }
      if !r.ok then some (false, r.out, l)
      else some (l.terminated, r.out, l)

end lineProtocolQuery

/-- Go `NewQuery(s)` -/
def NewQuery (s : List Byte) : lineProtocolQuery :=
  (({ d := { reading := [], Err := none, lastField := [] }, fields := [] } :
    lineProtocolQuery).Load s).2

/-! ## Calls and records -/

/-- One call of a `Write*` method of the encoder, without its key.  For
`WriteJson` and `WriteProto` the argument is the result of the external
marshaller on the value. -/
inductive WriteCall (F : Type) where
  | WriteBool (s : Bool)
  | WriteString (s : List Byte)
  | WriteBytes (s : List Byte)
  | WriteInt64 (i : Int)
  | WriteUint64 (ui : Nat)
  | WriteFloat64 (f : F) (precision : Int)
  | WriteJson (b : Except Error (List Byte))
  | WriteProto (b : Except Error (List Byte))

/-- The encoder after the call `c` with key `key`. -/
def WriteCall.run {F : Type} (ops : FloatOps F) (l : lineProtocolEncoder) (key : List Byte) :
    WriteCall F → lineProtocolEncoder
  | .WriteBool s => l.WriteBool key s
  | .WriteString s => l.WriteString key s
  | .WriteBytes s => l.WriteBytes key s
  | .WriteInt64 i => l.WriteInt64 key i
  | .WriteUint64 ui => l.WriteUint64 key ui
  | .WriteFloat64 f precision => l.WriteFloat64 ops key f precision
  | .WriteJson b => (l.WriteJson key b).2
  | .WriteProto b => (l.WriteProto key b).2

/-- The scalar writes: every `Write*` but `WriteJson` and `WriteProto`. -/
def WriteCall.scalar {F : Type} : WriteCall F → Bool
  | .WriteJson _ => false
  | .WriteProto _ => false
  | _ => true

/-- The arguments are values of their Go types: an `int64` lies in
`[-2^63, 2^63)` and a `uint64` below `2^64`. -/
def WriteCall.wellTyped {F : Type} : WriteCall F → Prop
  | .WriteInt64 i => -2 ^ 63 ≤ i ∧ i < 2 ^ 63
  | .WriteUint64 ui => ui < 2 ^ 64
  | _ => True

/-- The key contract: 1 to 255 bytes, none of them `=`. -/
def validKey (k : List Byte) : Prop :=
  1 ≤ k.length ∧ k.length ≤ 255 ∧ B '=' ∉ k

instance (k : List Byte) : Decidable (validKey k) := by
  unfold validKey; infer_instance

/-- A model of `float64` by exact decimals: the number `mant / 10 ^ scale`.
Every value `float64(i)/1000` of the test and its rendering with three
decimals is of this form.  The rounding of `float64` to 53 bits, the special
values (infinities, NaN, negative zero) and hexadecimal literals have no
counterpart here. -/
structure Decimal where
  mant : Int
  scale : Nat
  deriving DecidableEq, Repr

/-- The decimal digits of `n`, at least `width` of them. -/
def decDigits (n width : Nat) : List Byte :=
  let ds := (Nat.toDigits 10 n).map B
  List.replicate (width - ds.length) (B '0') ++ ds

/-- The value of a run of decimal digits, read after `acc`. -/
def decValue (ds : List Byte) (acc : Nat) : Nat :=
  ds.foldl (fun a c => a * 10 + (c.val - 48)) acc

/-- Whether the byte is a decimal digit. -/
def isDecDigit (c : Byte) : Bool := decide (48 ≤ c.val ∧ c.val ≤ 57)

/-- Fixed-point rendering of the magnitude of a decimal with `p` digits after
the point, rounded half to even, with `-` for a negative decimal. -/
def Decimal.formatFixed (d : Decimal) (p : Nat) : List Byte :=
  let num := d.mant.natAbs * 10 ^ p
  let den := 10 ^ d.scale
  let q := num / den
  let r := num % den
  let n := if 2 * r > den ∨ (2 * r = den ∧ q % 2 = 1) then q + 1 else q
  let ds := decDigits n (p + 1)
  let sign := if d.mant < 0 then [B '-'] else []
  if p = 0 then sign ++ ds
  else sign ++ ds.take (ds.length - p) ++ [B '.'] ++ ds.drop (ds.length - p)

/-- The decimal `m / 10 ^ s` without the zeros at the end of its fraction. -/
def Decimal.trim : Nat → Int → Decimal
  | 0, m => ⟨m, 0⟩
  | s + 1, m => if m % 10 = 0 then Decimal.trim s (m / 10) else ⟨m, s + 1⟩

/-- Rendering `strconv.FormatFloat(f, 'f', precision, 64)` of a decimal:
`precision` digits after the point, rounded half to even; for a negative
`precision` the shortest form, which for a decimal is the one without zeros
at the end of the fraction. -/
def Decimal.format (d : Decimal) (precision : Int) : List Byte :=
  if precision < 0 then
    Decimal.formatFixed (Decimal.trim d.scale d.mant) (Decimal.trim d.scale d.mant).scale
  else Decimal.formatFixed d precision.toNat

/-- What the mantissa loop of `readFloat` of `strconv` has read: the digits,
how many of them stand after the point, whether a point and an underscore
were met, and the bytes not read. -/
structure Mantissa where
  digits : List Byte
  frac : Nat
  sawdot : Bool
  underscores : Bool
  rest : List Byte
  deriving DecidableEq, Repr

/-- The mantissa loop of `readFloat` of `strconv` in base 10: digits, at most
one `.`, and underscores, up to the first other byte. -/
def readMantissa : List Byte → Mantissa → Mantissa
  | [], m => { m with rest := [] }
  | c :: cs, m =>
    if c = B '_' then readMantissa cs { m with underscores := true }
    else if c = B '.' then
      if m.sawdot then { m with rest := c :: cs }
      else readMantissa cs { m with sawdot := true }
    else if isDecDigit c then
      readMantissa cs
        { m with digits := m.digits ++ [c], frac := if m.sawdot then m.frac + 1 else m.frac }
    else { m with rest := c :: cs }

/-- The digits of the exponent in `readFloat`: the value (from 10000 on no
digit is added), whether an underscore was met, and the bytes not read. -/
def readExpDigits : List Byte → Nat → Bool → Nat × Bool × List Byte
  | [], e, us => (e, us, [])
  | c :: cs, e, us =>
    if c = B '_' then readExpDigits cs e true
    else if isDecDigit c then
      readExpDigits cs (if e < 10000 then e * 10 + (c.val - 48) else e) us
    else (e, us, c :: cs)

/-- The optional exponent of `readFloat` in base 10: the exponent, whether an
underscore was met, and the bytes not read; `none` when `e` or `E` is not
followed by an optional sign and a digit. -/
def readExponent (s : List Byte) : Option (Int × Bool × List Byte) :=
  match s with
  | [] => some (0, false, [])
  | c :: cs =>
    if lower c = (B 'e').val then
      match cs with
      | [] => none
      | x :: xs =>
        let esign : Int := if x = B '-' then -1 else 1
        let ds := if x = B '+' ∨ x = B '-' then xs else x :: xs
        match ds with
        | [] => none
        | d :: _ =>
          if !isDecDigit d then none
          else
            let r := readExpDigits ds 0 false
            some (esign * (r.1 : Int), r.2.1, r.2.2)
    else some (0, false, c :: cs)

/-- The loop of `underscoreOK` of `strconv` on a text without base prefix;
`saw` is 0 after a digit, 1 after an underscore and 2 after another byte. -/
def underscoreLoop : List Byte → Nat → Bool
  | [], saw => decide (saw ≠ 1)
  | c :: cs, saw =>
    if isDecDigit c then underscoreLoop cs 0
    else if c = B '_' then (if saw ≠ 0 then false else underscoreLoop cs 1)
    else if saw = 1 then false
    else underscoreLoop cs 2

/-- Function `underscoreOK` of `strconv` on a text without base prefix: an
underscore stands only between two digits. -/
def underscoreOK (s : List Byte) : Bool :=
  match s with
  | c :: cs => if c = B '-' ∨ c = B '+' then underscoreLoop cs 2 else underscoreLoop (c :: cs) 2
  | [] => underscoreLoop [] 2

/-- The least magnitude that `strconv.ParseFloat(s, 64)` reports as out of
range: `2 ^ 1024 - 2 ^ 970`, half an ulp above the greatest `float64`. -/
def floatRangeLimit : Nat :=
  179769313486231580793728971405303415079934132710037826936173778980444968292764750946649017977587207096330286416692887910946555547851940402630657488671505820681908902000708383676273854845817711531764475730270069855571366959622842914819860834936475292719074168444365510704342711559699508093042880177904174497792

/-- Reading `strconv.ParseFloat(s, 64)` of a decimal literal
`[+-] digits [. digits] [e [+-] digits]` with the underscores Go allows, and
the range error above the greatest `float64`.  The texts for infinities and
NaN and the hexadecimal literals, which have no decimal here, are syntax
errors. -/
def Decimal.parse (s : List Byte) : Decimal × Option Error :=
  let (neg, t) : Bool × List Byte :=
    match s with
    | c :: cs => if c = B '-' then (true, cs) else if c = B '+' then (false, cs) else (false, s)
    | [] => (false, [])
  let m := readMantissa t ⟨[], 0, false, false, []⟩
  if m.digits = [] then (⟨0, 0⟩, some Error.numSyntax)
  else
    match readExponent m.rest with
    | none => (⟨0, 0⟩, some Error.numSyntax)
    | some (e, us, rest) =>
      if rest ≠ [] then (⟨0, 0⟩, some Error.numSyntax)
      else if (m.underscores || us) && !underscoreOK s then (⟨0, 0⟩, some Error.numSyntax)
      else
        let mant := decValue m.digits 0
        let exp : Int := e - m.frac
        let d : Decimal :=
          if exp ≥ 0 then ⟨mant * 10 ^ exp.toNat, 0⟩ else ⟨mant, (-exp).toNat⟩
        if d.mant.natAbs ≥ floatRangeLimit * 10 ^ d.scale then (⟨0, 0⟩, some Error.numRange)
        else (⟨if neg then -d.mant else d.mant, d.scale⟩, none)

/-- The operations on `Decimal` that stand for those on `float64`. -/
def decimalOps : FloatOps Decimal where
  ltZero := fun d => decide (d.mant < 0)
  neg := fun d => ⟨-d.mant, d.scale⟩
  FormatFloat := Decimal.format
  ParseFloat := Decimal.parse

/-- The separator `writeColon` writes: `;` unless the field is the first. -/
def separator (prev : Bool) : List Byte := if prev then str ";" else []

/-- The value token of a call: what the `Write*` method appends after the key
(for the scalar writes, after `key=`; the integer and float writes append the
`=` with the token). -/
def WriteCall.token {F : Type} (ops : FloatOps F) : WriteCall F → List Byte
  | .WriteBool s => if s then str "1" else str "0"
  | .WriteString s =>
    if containsAny s (str "\";") then str "h\"" ++ hexEncode s ++ str "\""
    else str "\"" ++ s ++ str "\""
  | .WriteBytes s => str "b'" ++ base64Encode s ++ str "'"
  | .WriteInt64 i =>
    if i < 0 then str "-0x" ++ FormatInt (wrapInt64 (-i)) else str "0x" ++ FormatInt i
  | .WriteUint64 ui => str "0x" ++ FormatUint ui
  | .WriteFloat64 f precision =>
    if ops.ltZero f then str "-f" ++ ops.FormatFloat (ops.neg f) precision
    else str "f" ++ ops.FormatFloat f precision
  | .WriteJson b =>
    match b with
    | Except.ok b => str "b'" ++ base64Encode b ++ str "'"
    | Except.error _ => []
  | .WriteProto b =>
    match b with
    | Except.ok b => str "b'" ++ base64Encode b ++ str "'"
    | Except.error _ => []

/-- The calls `cs`, each with its key, made in order on the encoder. -/
def writeAll {F : Type} (ops : FloatOps F) (l : lineProtocolEncoder) :
    List (List Byte × WriteCall F) → lineProtocolEncoder
  | [] => l
  | (key, c) :: cs => writeAll ops (c.run ops l key) cs

/-- The text of one field: `key=token`. -/
def fieldText {F : Type} (ops : FloatOps F) (f : List Byte × WriteCall F) : List Byte :=
  f.1 ++ str "=" ++ f.2.token ops

/-- The record grammar `Field (';' Field)*` of the spec: the field texts
joined by one `;`. -/
def recordText {F : Type} (ops : FloatOps F) (fs : List (List Byte × WriteCall F)) : List Byte :=
  (str ";").intercalate (fs.map (fieldText ops))

/-! ## The round-trip test (`line_protocol_test.go`) -/

/-- The types of the round trip: `EncodeMagicString`, `EncodeMagicUint`,
`EncodeMagicInt`, `EncodeMagicBool` and `EncodeMagicBytes`. -/
inductive Kind where
  | string
  | uint
  | int
  | bool
  | bytes
  deriving DecidableEq, Repr

/-- A typed value of the round trip. -/
inductive Value where
  | string (s : List Byte)
  | uint (ui : Nat)
  | int (i : Int)
  | bool (b : Bool)
  | bytes (s : List Byte)
  deriving DecidableEq, Repr

/-- The type of a value. -/
def Value.kind : Value → Kind
  | .string _ => Kind.string
  | .uint _ => Kind.uint
  | .int _ => Kind.int
  | .bool _ => Kind.bool
  | .bytes _ => Kind.bytes

/-- The value is a value of its Go type: an `int64` lies in `[-2^63, 2^63)`
and a `uint64` below `2^64`. -/
def Value.wellTyped : Value → Prop
  | .uint ui => ui < 2 ^ 64
  | .int i => -2 ^ 63 ≤ i ∧ i < 2 ^ 63
  | _ => True

instance (v : Value) : Decidable v.wellTyped := by
  cases v <;> unfold Value.wellTyped <;> infer_instance

/-- The write of `fuzzEncode` for a value. -/
def Value.call {F : Type} : Value → WriteCall F
  | .string s => WriteCall.WriteString s
  | .uint ui => WriteCall.WriteUint64 ui
  | .int i => WriteCall.WriteInt64 i
  | .bool b => WriteCall.WriteBool b
  | .bytes s => WriteCall.WriteBytes s

/-- The typed read of `checkField` for a type. -/
def Kind.read : Kind → lineProtocolDecoder → Read Value
  | .string, d => let r := d.StringField; ⟨r.ok, r.out.map Value.string, r.dec⟩
  | .uint, d => let r := d.Uint64Field; ⟨r.ok, r.out.map Value.uint, r.dec⟩
  | .int, d => let r := d.Int64Field; ⟨r.ok, r.out.map Value.int, r.dec⟩
  | .bool, d => let r := d.BoolField; ⟨r.ok, r.out.map Value.bool, r.dec⟩
  | .bytes, d => let r := d.BytesField; ⟨r.ok, r.out.map Value.bytes, r.dec⟩

/-- The typed lookup of `checkQueryField` for a type: the lookup method of
the query for that type. -/
def Kind.lookup : Kind → lineProtocolQuery → List Byte →
    Bool × Option Value × lineProtocolQuery
  | .string, q, key => let r := q.StringField key; (r.1, r.2.1.map Value.string, r.2.2)
  | .uint, q, key => let r := q.Uint64Field key; (r.1, r.2.1.map Value.uint, r.2.2)
  | .int, q, key => let r := q.Int64Field key; (r.1, r.2.1.map Value.int, r.2.2)
  | .bool, q, key => let r := q.BoolField key; (r.1, r.2.1.map Value.bool, r.2.2)
  | .bytes, q, key => let r := q.BytesField key; (r.1, r.2.1.map Value.bytes, r.2.2)

/-- The writes of the fields in order, as `fuzzEncode` makes them. -/
def encodeFields (l : lineProtocolEncoder) (fs : List (List Byte × Value)) :
    lineProtocolEncoder :=
  writeAll decimalOps l (fs.map (fun f => (f.1, f.2.call)))

/-- The decoder driven by `Next` followed by the typed read of each type of
`ks` in turn: the keys and values stored and the decoder after the last read;
`none` when a `Next` or a typed read returns false or stores nothing. -/
def decodeFields : List Kind → lineProtocolDecoder →
    Option (List (List Byte × Value) × lineProtocolDecoder)
  | [], d => some ([], d)
  | k :: ks, d =>
    match d.Next with
    | ⟨true, some key, d1⟩ =>
      match k.read d1 with
      | ⟨true, some v, d2⟩ =>
        match decodeFields ks d2 with
        | some (fs, d3) => some ((key, v) :: fs, d3)
        | none => none
      | _ => none
    | _ => none

/-! ## Auxiliary notions of the proofs -/

/-- What follows a token in a record: nothing, or `;` and the next field. -/
def sepTail (tail : List Byte) : Prop := tail = [] ∨ ∃ rest, tail = 59 :: rest

/-- What follows the first field of a record: nothing, or `;` and the record
of the other fields. -/
def restTail {F : Type} (ops : FloatOps F) (fs : List (List Byte × WriteCall F)) : List Byte :=
  if fs.isEmpty then [] else 59 :: recordText ops fs

/-- The calls of a list of fields. -/
def callsOf (fs : List (List Byte × Value)) : List (List Byte × WriteCall Decimal) :=
  fs.map (fun f => (f.1, f.2.call))

/-- The key and the token of each field. -/
def rawOf (fs : List (List Byte × Value)) : List (List Byte × List Byte) :=
  fs.map (fun f => (f.1, (f.2.call : WriteCall Decimal).token decimalOps))

/-- The map after the assignments `m[k] = v` for the entries of `kvs` in
order. -/
def mapSetAll (m : FieldMap) (kvs : List (List Byte × List Byte)) : FieldMap :=
  kvs.foldl (fun m kv => mapSet m kv.1 kv.2) m

/-- Lowercase hex of a byte string, as the spec words it: for each byte its
two digits out of `0123456789abcdef`, the high one first. -/
def lowerHex (s : List Byte) : List Byte :=
  s.flatMap (fun b =>
    [(str "0123456789abcdef").getD (b.val / 16) 0, (str "0123456789abcdef").getD (b.val % 16) 0])

/-- A record of five fields: a key with `;`, the least `int64`, a string with
`"` and `;`, bytes with NUL, `'`, `"` and `;`, and the greatest `uint64`. -/
def sampleFields : List (List Byte × Value) :=
  [(str "a;", Value.bool true),
   (str "b", Value.int (-9223372036854775808)),
   (str "c", Value.string (str "a\"b;c")),
   (str "d", Value.bytes (0 :: str "'\";")),
   (str "e", Value.uint 18446744073709551615)]

/-! ## The fields of an input, as the spec words the split -/

/-- The raw value segment at the start of `v`: it runs to the next `;` or to
the end of the input. -/
def rawValue (v : List Byte) : List Byte :=
  match indexByte v (B ';') with
  | some j => v.take j
  | none => v

/-- What follows the raw value segment and its `;` in `v`. -/
def afterValue (v : List Byte) : List Byte :=
  match indexByte v (B ';') with
  | some j => v.drop (j + 1)
  | none => []

/-- The split of an input into fields as the spec words it, scanning from the
left: the key segment runs to the next `=`, the raw value segment to the next
`;` or the end of the input.  The boolean tells a split failure: no `=` before
the input is exhausted, or a key of length 0 or above 255.  Every field takes
at least two bytes, so fuel equal to the length of the input is never used
up. -/
def specSplit : Nat → List Byte → List (List Byte × List Byte) × Bool
  | 0, _ => ([], false)
  | fuel + 1, rest =>
    if rest = [] then ([], false)
    else
      match indexByte rest (B '=') with
      | none => ([], true)
      | some i =>
        if i = 0 ∨ i > 255 then ([], true)
        else
          let r := specSplit fuel (afterValue (rest.drop (i + 1)))
          ((rest.take i, rawValue (rest.drop (i + 1))) :: r.1, r.2)

/-- The fields of the input `s` up to the first split failure. -/
def specFields (s : List Byte) : List (List Byte × List Byte) := (specSplit s.length s).1

/-- Whether the input `s` has a split failure. -/
def specSplitFails (s : List Byte) : Bool := (specSplit s.length s).2

/-- The raw value of the last field of `kvs` whose key is `k`. -/
def lastValue : List (List Byte × List Byte) → List Byte → Option (List Byte)
  | [], _ => none
  | (k0, v0) :: kvs, k =>
    match lastValue kvs k with
    | some v => some v
    | none => if k0 = k then some v0 else none

/-- Whether the byte is a hex digit, `0-9`, `a-f` or `A-F`. -/
def isHexDigit (c : Byte) : Bool :=
  decide ((48 ≤ c.val ∧ c.val ≤ 57) ∨ (97 ≤ c.val ∧ c.val ≤ 102) ∨ (65 ≤ c.val ∧ c.val ≤ 70))

/-- An input whose key segment has 256 bytes: 256 times `a`, then `=1`. -/
def longKeyInput : List Byte := List.replicate 256 (B 'a') ++ str "=1"

/-! ## Theorems -/

theorem B_equals : B '=' = 61 := by decide
theorem B_semicolon : B ';' = 59 := by decide
theorem B_minus : B '-' = 45 := by decide
theorem B_plus : B '+' = 43 := by decide
theorem B_dquote : B '"' = 34 := by decide
theorem B_zero : B '0' = 48 := by decide
theorem B_one : B '1' = 49 := by decide
theorem B_h : B 'h' = 104 := by decide
theorem B_b : B 'b' = 98 := by decide
theorem str_equals : str "=" = [61] := by decide
theorem str_semicolon : str ";" = [59] := by decide
theorem str_one : str "1" = [49] := by decide
theorem str_zero : str "0" = [48] := by decide
theorem str_0x : str "0x" = [48, 120] := by decide
theorem str_neg0x : str "-0x" = [45, 48, 120] := by decide
theorem str_eq0x : str "=0x" = [61, 48, 120] := by decide
theorem str_eqneg0x : str "=-0x" = [61, 45, 48, 120] := by decide
theorem str_eqf : str "=f" = [61, 102] := by decide
theorem str_eqnegf : str "=-f" = [61, 45, 102] := by decide
theorem str_f : str "f" = [102] := by decide
theorem str_negf : str "-f" = [45, 102] := by decide
theorem str_dquote : str "\"" = [34] := by decide
theorem str_hdquote : str "h\"" = [104, 34] := by decide
theorem str_dquote_semicolon : str "\";" = [34, 59] := by decide
theorem str_bquote : str "b'" = [98, 39] := by decide
theorem str_quote : str "'" = [39] := by decide

theorem containsByte_iff (k : List Byte) (c : Byte) : containsByte k c = true ↔ c ∈ k := by
  induction k with
  | nil => simp [containsByte, indexByte]
  | cons x xs ih =>
    simp only [containsByte, indexByte] at ih ⊢
    by_cases h : x = c
    · simp [h]
    · simp [h, ih, Ne.symm h]

theorem checkState_poisoned (l : lineProtocolEncoder) (k : List Byte) (h : l.Err ≠ none) :
    l.checkState k = (false, l) := by
  simp [lineProtocolEncoder.checkState, h]

theorem checkState_valid (l : lineProtocolEncoder) (k : List Byte) (hl : l.Err = none)
    (hk : validKey k) : l.checkState k = (true, l) := by
  obtain ⟨h1, h2, h3⟩ := hk
  have hc : containsByte k (B '=') = false := by
    rw [Bool.eq_false_iff, Ne, containsByte_iff]; exact h3
  have hlen : ¬ (k.length > MaxKeyLength ∨ k.length = 0) := by
    simp only [MaxKeyLength]; omega
  unfold lineProtocolEncoder.checkState
  rw [if_neg (by simp [hl]), hc, if_neg (by simp), if_neg hlen]

theorem checkState_invalid (l : lineProtocolEncoder) (k : List Byte) (hl : l.Err = none)
    (hk : B '=' ∈ k ∨ k.length = 0 ∨ k.length > 255) :
    ∃ e, l.checkState k = (false, { l with Err := some e }) := by
  unfold lineProtocolEncoder.checkState
  rw [if_neg (by simp [hl])]
  by_cases hc : containsByte k (B '=') = true
  · exact ⟨Error.keyContainsEq k, by rw [if_pos hc]⟩
  · have hlen : k.length > MaxKeyLength ∨ k.length = 0 := by
      rw [containsByte_iff] at hc
      simp only [MaxKeyLength]
      rcases hk with h | h | h
      · exact absurd h hc
      · exact Or.inr h
      · exact Or.inl h
    exact ⟨Error.keyLengthRange k, by rw [if_neg hc, if_pos hlen]⟩

/-- A scalar write with a valid key on an encoder without error appends the
separator, the key, `=` and the token, and records no error. -/
theorem run_scalar {F : Type} (ops : FloatOps F) (l : lineProtocolEncoder) (key : List Byte)
    (c : WriteCall F) (hl : l.Err = none) (hk : validKey key) (hs : c.scalar = true) :
    (c.run ops l key).buf = l.buf ++ separator l.prev ++ key ++ str "=" ++ c.token ops ∧
    (c.run ops l key).prev = true ∧ (c.run ops l key).Err = none := by
  have hv := checkState_valid l key hl hk
  cases c <;>
  simp [WriteCall.scalar] at hs <;>
  simp only [WriteCall.run, lineProtocolEncoder.WriteBool, lineProtocolEncoder.WriteString,
      lineProtocolEncoder.WriteBytes, lineProtocolEncoder.WriteInt64,
      lineProtocolEncoder.WriteUint64, lineProtocolEncoder.WriteFloat64, hv,
      lineProtocolEncoder.writeColon, WriteCall.token, separator,
      lineProtocolEncoder.bufWriteString, lineProtocolEncoder.writeQuotedString,
      lineProtocolEncoder.writeQuotedBytes, lineProtocolEncoder.writeHex,
      lineProtocolEncoder.writeBase64, str_equals, str_semicolon, str_one, str_zero, str_0x,
      str_neg0x, str_eq0x, str_eqneg0x, str_eqf, str_eqnegf, str_f, str_negf, str_dquote,
      str_hdquote, str_dquote_semicolon, str_bquote, str_quote] <;>
  (repeat' split) <;> simp_all

theorem recordText_nil {F : Type} (ops : FloatOps F) : recordText ops [] = [] := by
  simp [recordText, List.intercalate]

theorem recordText_single {F : Type} (ops : FloatOps F) (f : List Byte × WriteCall F) :
    recordText ops [f] = fieldText ops f := by
  simp [recordText, List.intercalate]

theorem recordText_cons_cons {F : Type} (ops : FloatOps F) (f g : List Byte × WriteCall F)
    (fs : List (List Byte × WriteCall F)) :
    recordText ops (f :: g :: fs) = fieldText ops f ++ str ";" ++ recordText ops (g :: fs) := by
  simp [recordText, List.intercalate]

/-- The buffer after a run of scalar writes with valid keys. -/
theorem writeAll_buf {F : Type} (ops : FloatOps F) (fs : List (List Byte × WriteCall F)) :
    ∀ (l : lineProtocolEncoder), l.Err = none →
    (∀ f ∈ fs, validKey f.1 ∧ f.2.scalar = true) →
    (writeAll ops l fs).Err = none ∧
    (writeAll ops l fs).buf =
      l.buf ++ (if fs.isEmpty then [] else separator l.prev ++ recordText ops fs) := by
  induction fs with
  | nil => intro l hl _; simp [writeAll, hl]
  | cons f fs ih =>
    intro l hl hfs
    obtain ⟨key, c⟩ := f
    have hf := hfs (key, c) (List.mem_cons_self _ _)
    obtain ⟨hb, hp, he⟩ := run_scalar ops l key c hl hf.1 hf.2
    have ih' := ih (c.run ops l key) he (fun g hg => hfs g (List.mem_cons_of_mem _ hg))
    refine ⟨by simpa [writeAll] using ih'.1, ?_⟩
    simp only [writeAll, ih'.2, hb, hp]
    cases fs with
    | nil => simp [recordText_single, fieldText]
    | cons g gs =>
      simp [recordText_cons_cons, fieldText, separator, str_semicolon, str_equals]

/-! ### Hex digits -/

theorem hexDigit_table : ∀ n, n < 16 →
    hexDigit n ∈ str "0123456789abcdef" ∧ reverseHexTable (hexDigit n) = n ∧
    digitVal (hexDigit n) = some n ∧ hexDigit n ≠ 59 ∧ hexDigit n ≠ 34 ∧ hexDigit n ≠ 39 ∧
    hexDigit n ≠ 45 ∧ hexDigit n ≠ 43 := by
  decide

theorem byte_of_nibbles (b : Byte) : (Fin.ofNat (b.val / 16 * 16 + b.val % 16) : Byte) = b := by
  apply Fin.ext
  have h := b.isLt
  simp only [Fin.ofNat, Fin.val_mk]
  omega

theorem hexDecode_hexEncode (s : List Byte) : hexDecodeString (hexEncode s) = (s, none) := by
  induction s with
  | nil => rfl
  | cons b bs ih =>
    have h1 := hexDigit_table (b.val / 16) (by have := b.isLt; omega)
    have h2 := hexDigit_table (b.val % 16) (by omega)
    simp only [hexEncode, hexDecodeString, h1.2.1, h2.2.1, ih, byte_of_nibbles]
    have e1 : ¬ (b.val / 16 > 15) := by have := b.isLt; omega
    have e2 : ¬ (b.val % 16 > 15) := by omega
    simp [e1, e2]

theorem hexEncode_mem (s : List Byte) : ∀ c ∈ hexEncode s, ∃ n, n < 16 ∧ c = hexDigit n := by
  induction s with
  | nil => simp [hexEncode]
  | cons b bs ih =>
    intro c hc
    simp only [hexEncode, List.mem_cons] at hc
    rcases hc with h | h | h
    · exact ⟨b.val / 16, by have := b.isLt; omega, h⟩
    · exact ⟨b.val % 16, by omega, h⟩
    · exact ih c h

theorem hexEncode_length (s : List Byte) : (hexEncode s).length = 2 * s.length := by
  induction s with
  | nil => rfl
  | cons b bs ih => simp only [hexEncode, List.length_cons, ih]; omega

/-! ### `strconv` in base 16 -/

theorem formatBitsLoop_mem (fuel : Nat) : ∀ (u : Nat) (a : List Byte), u < 16 ^ (fuel + 1) →
    ∀ c ∈ formatBitsLoop fuel u a, (∃ n, n < 16 ∧ c = hexDigit n) ∨ c ∈ a := by
  induction fuel with
  | zero =>
    intro u a hu c hc
    simp only [formatBitsLoop, List.mem_cons] at hc
    rcases hc with h | h
    · exact Or.inl ⟨u, by simpa using hu, h⟩
    · exact Or.inr h
  | succ fuel ih =>
    intro u a hu c hc
    simp only [formatBitsLoop] at hc
    split at hc
    · have hu' : u / 16 < 16 ^ (fuel + 1) := by
        rw [Nat.div_lt_iff_lt_mul (by norm_num)]; rw [pow_succ] at hu; exact hu
      rcases ih (u / 16) _ hu' c hc with h | h
      · exact Or.inl h
      · simp only [List.mem_cons] at h
        rcases h with h | h
        · exact Or.inl ⟨u % 16, by omega, h⟩
        · exact Or.inr h
    · simp only [List.mem_cons] at hc
      rcases hc with h | h
      · exact Or.inl ⟨u, by omega, h⟩
      · exact Or.inr h

theorem formatBitsLoop_ne_nil (fuel u : Nat) (a : List Byte) : formatBitsLoop fuel u a ≠ [] := by
  induction fuel generalizing u a with
  | zero => simp [formatBitsLoop]
  | succ fuel ih =>
    simp only [formatBitsLoop]
    split
    · exact ih _ _
    · simp

theorem parseUintLoop_cons_digit (n acc : Nat) (cs : List Byte) (hn : n < 16)
    (hacc : acc < 2 ^ 60) :
    parseUintLoop (hexDigit n :: cs) acc = parseUintLoop cs (acc * 16 + n) := by
  have h := hexDigit_table n hn
  have e1 : ¬ (n ≥ 16) := by omega
  have e2 : ¬ (acc ≥ (2 ^ 64 - 1) / 16 + 1) := by omega
  have e3 : (acc * 16 + n) % 2 ^ 64 = acc * 16 + n := by omega
  have e4 : acc * 16 % 2 ^ 64 = acc * 16 := by omega
  have e5 : ¬ (acc * 16 + n < acc * 16 ∨ acc * 16 + n > 2 ^ 64 - 1) := by omega
  simp only [parseUintLoop, h.2.2.1]
  rw [if_neg e1, if_neg e2]
  simp only [e4, e3]
  rw [if_neg e5]

/-- Reading back the digits written by the loop of `formatBits`. -/
theorem parseUintLoop_formatBitsLoop (fuel : Nat) : ∀ (u : Nat) (a : List Byte),
    u < 16 ^ (fuel + 1) → u < 2 ^ 64 →
    parseUintLoop (formatBitsLoop fuel u a) 0 = parseUintLoop a u := by
  induction fuel with
  | zero =>
    intro u a hu _
    have hu' : u < 16 := by simpa using hu
    simp only [formatBitsLoop]
    rw [parseUintLoop_cons_digit u 0 a hu' (by norm_num)]
    simp
  | succ fuel ih =>
    intro u a hu h64
    simp only [formatBitsLoop]
    split
    · have hu' : u / 16 < 16 ^ (fuel + 1) := by
        rw [Nat.div_lt_iff_lt_mul (by norm_num)]; rw [pow_succ] at hu; exact hu
      rw [ih (u / 16) _ hu' (by omega)]
      rw [parseUintLoop_cons_digit (u % 16) (u / 16) a (by omega) (by omega)]
      congr 1
      omega
    · have hu' : u < 16 := by omega
      rw [parseUintLoop_cons_digit u 0 a hu' (by norm_num)]
      simp

theorem ParseUint_FormatUint (u : Nat) (h : u < 2 ^ 64) : ParseUint (FormatUint u) = (u, none) := by
  simp only [ParseUint, FormatUint, formatBits, Bool.false_eq_true, if_false]
  rw [if_neg (formatBitsLoop_ne_nil _ _ _)]
  rw [parseUintLoop_formatBitsLoop 16 u [] (by norm_num; omega) h]
  rfl

theorem FormatUint_mem (u : Nat) (h : u < 2 ^ 64) :
    ∀ c ∈ FormatUint u, ∃ n, n < 16 ∧ c = hexDigit n := by
  intro c hc
  simp only [FormatUint, formatBits, Bool.false_eq_true, if_false] at hc
  rcases formatBitsLoop_mem 16 u [] (by norm_num; omega) c hc with h | h
  · exact h
  · simp at h

theorem formatBitsLoop_head (u : Nat) (h : u < 2 ^ 64) :
    ∃ c cs, formatBitsLoop 16 u [] = c :: cs ∧ c ≠ 45 ∧ c ≠ 43 := by
  match hf : formatBitsLoop 16 u [] with
  | [] => exact absurd hf (formatBitsLoop_ne_nil _ _ _)
  | c :: cs =>
    refine ⟨c, cs, rfl, ?_⟩
    have hm := formatBitsLoop_mem 16 u [] (by norm_num; omega) c (by rw [hf]; simp)
    rcases hm with ⟨n, hn, rfl⟩ | hm
    · have := hexDigit_table n hn
      exact ⟨this.2.2.2.2.2.2.1, this.2.2.2.2.2.2.2⟩
    · simp at hm

theorem ParseUint_formatBitsLoop (u : Nat) (h : u < 2 ^ 64) :
    ParseUint (formatBitsLoop 16 u []) = (u, none) := by
  have := ParseUint_FormatUint u h
  simpa [FormatUint, formatBits] using this

theorem ParseInt_neg (ds : List Byte) (u : Nat) (hp : ParseUint ds = (u, none))
    (hu : u ≤ 2 ^ 63) : ParseInt (45 :: ds) = (wrapInt64 (-(toInt64 u)), none) := by
  have e : ¬ (u > 2 ^ 63) := by omega
  simp [ParseInt, B_minus, B_plus, hp, e]
  omega

theorem ParseInt_pos (c : Byte) (cs : List Byte) (u : Nat) (hc1 : c ≠ 45) (hc2 : c ≠ 43)
    (hp : ParseUint (c :: cs) = (u, none)) (hu : u < 2 ^ 63) :
    ParseInt (c :: cs) = (toInt64 u, none) := by
  have e : ¬ (u ≥ 2 ^ 63) := by omega
  have e' : ¬ (2 ^ 63 ≤ u) := by omega
  simp [ParseInt, B_minus, B_plus, hp, e', hc1, hc2]
  omega

theorem ParseInt_FormatInt (j : Int) (h1 : -2 ^ 63 ≤ j) (h2 : j < 2 ^ 63) :
    ParseInt (FormatInt j) = (j, none) := by
  by_cases hneg : j < 0
  · have hu : (2 ^ 64 - toUint64 j) % 2 ^ 64 = j.natAbs := by
      simp only [toUint64]; omega
    have hlt : j.natAbs < 2 ^ 64 := by omega
    simp only [FormatInt, formatBits, hneg, decide_True, if_true, hu, B_minus]
    rw [ParseInt_neg _ _ (ParseUint_formatBitsLoop _ hlt) (by omega)]
    simp only [toInt64, wrapInt64, Prod.mk.injEq, and_true]
    omega
  · have hu : toUint64 j = j.toNat := by
      simp only [toUint64]; omega
    have hlt : j.toNat < 2 ^ 64 := by omega
    have hd : decide (j < 0) = false := by simp [hneg]
    simp only [FormatInt, formatBits, hd, Bool.false_eq_true, if_false, hu]
    obtain ⟨c, cs, hcs, hc1, hc2⟩ := formatBitsLoop_head j.toNat hlt
    have hp := ParseUint_formatBitsLoop j.toNat hlt
    rw [hcs] at hp ⊢
    rw [ParseInt_pos c cs _ hc1 hc2 hp (by omega)]
    simp only [toInt64, wrapInt64, Prod.mk.injEq, and_true]
    omega

theorem FormatInt_mem (j : Int) :
    ∀ c ∈ FormatInt j, c ≠ 59 := by
  intro c hc
  have key : ∀ u, u < 2 ^ 64 → c ∈ formatBitsLoop 16 u [] → c ≠ 59 := by
    intro u hu h
    rcases formatBitsLoop_mem 16 u [] (by norm_num; omega) c h with ⟨n, hn, rfl⟩ | hm
    · exact (hexDigit_table n hn).2.2.2.1
    · simp at hm
  by_cases hneg : j < 0
  · simp only [FormatInt, formatBits, hneg, decide_True, if_true, B_minus, List.mem_cons] at hc
    rcases hc with h | h
    · rw [h]; decide
    · exact key _ (by omega) h
  · have hd : decide (j < 0) = false := by simp [hneg]
    simp only [FormatInt, formatBits, hd, Bool.false_eq_true, if_false] at hc
    exact key _ (by simp only [toUint64]; omega) hc

/-! ### Base64 -/

theorem b64Char_table : ∀ n, n < 64 →
    b64DecodeMap (b64Char n) = n ∧ b64Char n ≠ 39 ∧ b64Char n ≠ 34 ∧ b64Char n ≠ 59 ∧
    b64Char n ≠ 10 ∧ b64Char n ≠ 13 ∧ b64Char n ≠ 61 ∧
    b64Char n ∈ str "ABCDEFGHIJKLMNOPQRSTUVWXYZabcdefghijklmnopqrstuvwxyz0123456789-_" := by
  decide

theorem decodeQuantum_char (n : Nat) (hn : n < 64) (rest : List Byte) (j : Nat)
    (dbuf : List Nat) :
    decodeQuantum (b64Char n :: rest) j dbuf =
      if j + 1 = 4 then (rest, quantumBytes (dbuf ++ [n]) 4, none)
      else decodeQuantum rest (j + 1) (dbuf ++ [n]) := by
  have h := b64Char_table n hn
  have e : b64DecodeMap (b64Char n) ≠ 255 := by rw [h.1]; omega
  rw [decodeQuantum, if_pos e, h.1]

theorem decodeQuantum_group (a b c : Byte) (rest : List Byte) :
    decodeQuantum (base64Encode (a :: b :: c :: rest)) 0 [] =
      (base64Encode rest, [a, b, c], none) := by
  have ha := a.isLt
  have hb := b.isLt
  have hc := c.isLt
  simp only [base64Encode]
  rw [decodeQuantum_char _ (by omega), if_neg (by omega),
    decodeQuantum_char _ (by omega), if_neg (by omega),
    decodeQuantum_char _ (by omega), if_neg (by omega),
    decodeQuantum_char _ (by omega), if_pos (by omega)]
  simp only [quantumBytes, List.nil_append, List.cons_append, List.getD_cons_zero,
    List.getD_cons_succ, Prod.mk.injEq, and_true, true_and]
  simp only [List.take, List.cons.injEq, and_true]
  refine ⟨?_, ?_, ?_⟩ <;> (apply Fin.ext; simp only [Fin.ofNat, Fin.val_mk]; omega)

theorem decodeQuantum_two (a b : Byte) :
    decodeQuantum (base64Encode [a, b]) 0 [] = ([], [a, b], none) := by
  have ha := a.isLt
  have hb := b.isLt
  simp only [base64Encode]
  rw [decodeQuantum_char _ (by omega), if_neg (by omega),
    decodeQuantum_char _ (by omega), if_neg (by omega),
    decodeQuantum_char _ (by omega), if_neg (by omega)]
  have e : b64DecodeMap (B '=') = 255 := by decide
  rw [decodeQuantum, e]
  simp only [B_equals, skipNewlines, quantumBytes]
  simp
  refine ⟨?_, ?_⟩ <;> (apply Fin.ext; simp only [Fin.ofNat, Fin.val_mk]; omega)

theorem decodeQuantum_one (a : Byte) :
    decodeQuantum (base64Encode [a]) 0 [] = ([], [a], none) := by
  have ha := a.isLt
  simp only [base64Encode]
  rw [decodeQuantum_char _ (by omega), if_neg (by omega),
    decodeQuantum_char _ (by omega), if_neg (by omega)]
  have e : b64DecodeMap (B '=') = 255 := by decide
  rw [decodeQuantum, e]
  simp only [B_equals, skipNewlines, quantumBytes]
  simp
  refine ⟨rfl, ?_, rfl⟩
  apply Fin.ext; simp only [Fin.ofNat, Fin.val_mk]; omega

theorem base64Encode_length_pos (s : List Byte) (h : s ≠ []) : base64Encode s ≠ [] := by
  match s with
  | [] => exact absurd rfl h
  | [a] => simp [base64Encode]
  | [a, b] => simp [base64Encode]
  | a :: b :: c :: rest => simp [base64Encode]

theorem base64DecodeLoop_encode (s : List Byte) :
    ∀ fuel, (base64Encode s).length ≤ fuel → base64DecodeLoop fuel (base64Encode s) = (s, none) := by
  induction s using base64Encode.induct with
  | case1 =>
    intro fuel _
    cases fuel <;> simp [base64Encode, base64DecodeLoop]
  | case2 a =>
    intro fuel hf
    cases fuel with
    | zero => simp [base64Encode] at hf
    | succ fuel =>
      rw [base64DecodeLoop, if_neg (base64Encode_length_pos _ (by simp)), decodeQuantum_one]
      cases fuel <;> simp [base64DecodeLoop]
  | case3 a b =>
    intro fuel hf
    cases fuel with
    | zero => simp [base64Encode] at hf
    | succ fuel =>
      rw [base64DecodeLoop, if_neg (base64Encode_length_pos _ (by simp)), decodeQuantum_two]
      cases fuel <;> simp [base64DecodeLoop]
  | case4 a b c rest ih =>
    intro fuel hf
    cases fuel with
    | zero => simp [base64Encode] at hf
    | succ fuel =>
      rw [base64DecodeLoop, if_neg (base64Encode_length_pos _ (by simp)), decodeQuantum_group]
      have hf' : (base64Encode rest).length ≤ fuel := by
        simp only [base64Encode, List.length_cons] at hf; omega
      simp [ih fuel hf']

theorem base64Decode_base64Encode (s : List Byte) : base64Decode (base64Encode s) = (s, none) :=
  base64DecodeLoop_encode s _ (le_refl _)

theorem base64Encode_mem (s : List Byte) :
    ∀ c ∈ base64Encode s, (∃ n, n < 64 ∧ c = b64Char n) ∨ c = 61 := by
  induction s using base64Encode.induct with
  | case1 => simp [base64Encode]
  | case2 a =>
    intro c hc
    simp only [base64Encode, List.mem_cons, B_equals, List.mem_singleton, List.not_mem_nil,
      or_false] at hc
    rcases hc with h | h | h | h
    · exact Or.inl ⟨_, Nat.mod_lt _ (by norm_num), h⟩
    · exact Or.inl ⟨_, Nat.mod_lt _ (by norm_num), h⟩
    · exact Or.inr h
    · exact Or.inr h
  | case3 a b =>
    intro c hc
    simp only [base64Encode, List.mem_cons, B_equals, List.mem_singleton, List.not_mem_nil,
      or_false] at hc
    rcases hc with h | h | h | h
    · exact Or.inl ⟨_, Nat.mod_lt _ (by norm_num), h⟩
    · exact Or.inl ⟨_, Nat.mod_lt _ (by norm_num), h⟩
    · exact Or.inl ⟨_, Nat.mod_lt _ (by norm_num), h⟩
    · exact Or.inr h
  | case4 a b c rest ih =>
    intro x hx
    simp only [base64Encode, List.mem_cons] at hx
    rcases hx with h | h | h | h | h
    · exact Or.inl ⟨_, Nat.mod_lt _ (by norm_num), h⟩
    · exact Or.inl ⟨_, Nat.mod_lt _ (by norm_num), h⟩
    · exact Or.inl ⟨_, Nat.mod_lt _ (by norm_num), h⟩
    · exact Or.inl ⟨_, Nat.mod_lt _ (by norm_num), h⟩
    · exact ih x h

theorem base64Encode_length (s : List Byte) :
    (base64Encode s).length = 4 * ((s.length + 2) / 3) := by
  induction s using base64Encode.induct with
  | case1 => simp [base64Encode]
  | case2 a => simp [base64Encode]
  | case3 a b => simp [base64Encode]
  | case4 a b c rest ih =>
    simp only [base64Encode, List.length_cons, ih]
    omega

/-! ### Scanning -/

theorem indexByte_none (a : List Byte) (c : Byte) (h : c ∉ a) : indexByte a c = none := by
  induction a with
  | nil => rfl
  | cons x xs ih =>
    simp only [List.mem_cons, not_or] at h
    simp [indexByte, Ne.symm h.1, ih h.2]

theorem indexByte_append_cons (a rest : List Byte) (c : Byte) (h : c ∉ a) :
    indexByte (a ++ c :: rest) c = some a.length := by
  induction a with
  | nil => simp [indexByte]
  | cons x xs ih =>
    simp only [List.mem_cons, not_or] at h
    simp [indexByte, Ne.symm h.1, ih h.2]

theorem eatOptionalComma_tail (tail lf : List Byte) (ht : sepTail tail) :
    (⟨tail, none, lf⟩ : lineProtocolDecoder).eatOptionalComma = (true, ⟨tail.drop 1, none, lf⟩) := by
  rcases ht with rfl | ⟨rest, rfl⟩
  · simp [lineProtocolDecoder.eatOptionalComma]
  · simp [lineProtocolDecoder.eatOptionalComma, B_semicolon]

theorem Next_key (key rest lf : List Byte) (hk : validKey key) :
    (⟨key ++ 61 :: rest, none, lf⟩ : lineProtocolDecoder).Next =
      ⟨true, some key, ⟨rest, none, key⟩⟩ := by
  obtain ⟨h1, h2, h3⟩ := hk
  rw [B_equals] at h3
  have hi := indexByte_append_cons key rest 61 h3
  simp only [lineProtocolDecoder.Next, B_equals, hi, MaxKeyLength]
  rw [if_neg (by simp), if_neg (by omega)]
  simp

theorem BoolField_token (b : Bool) (tail lf : List Byte) (ht : sepTail tail) :
    (⟨(if b then str "1" else str "0") ++ tail, none, lf⟩ : lineProtocolDecoder).BoolField =
      ⟨true, some b, ⟨tail.drop 1, none, lf⟩⟩ := by
  cases b <;>
  simp [lineProtocolDecoder.BoolField, str_one, str_zero, B_one, B_zero,
    eatOptionalComma_tail tail lf ht]

theorem Uint64Field_token (u : Nat) (hu : u < 2 ^ 64) (tail lf : List Byte) (ht : sepTail tail) :
    (⟨str "0x" ++ FormatUint u ++ tail, none, lf⟩ : lineProtocolDecoder).Uint64Field =
      ⟨true, some u, ⟨tail.drop 1, none, lf⟩⟩ := by
  have hn : (59 : Byte) ∉ FormatUint u := by
    intro hc
    obtain ⟨n, hn, h⟩ := FormatUint_mem u hu 59 hc
    exact (hexDigit_table n hn).2.2.2.1 h.symm
  rcases ht with rfl | ⟨rest, rfl⟩
  · simp [lineProtocolDecoder.Uint64Field, str_0x, hasPrefix, B_semicolon,
      indexByte_none _ 59 hn, ParseUint_FormatUint u hu]
  · simp [lineProtocolDecoder.Uint64Field, str_0x, hasPrefix, B_semicolon,
      indexByte_append_cons _ rest 59 hn, ParseUint_FormatUint u hu]

theorem wrapInt64_range (x : Int) : -2 ^ 63 ≤ wrapInt64 x ∧ wrapInt64 x < 2 ^ 63 := by
  simp only [wrapInt64]; omega

theorem Int64Field_digits (j : Int) (h1 : -2 ^ 63 ≤ j) (h2 : j < 2 ^ 63) (neg : Bool)
    (tail lf : List Byte) (ht : sepTail tail) :
    (⟨(if neg then str "-0x" else str "0x") ++ FormatInt j ++ tail, none, lf⟩ :
        lineProtocolDecoder).Int64Field =
      ⟨true, some (if neg then wrapInt64 (-j) else j), ⟨tail.drop 1, none, lf⟩⟩ := by
  have hn : (59 : Byte) ∉ FormatInt j := fun hc => FormatInt_mem j 59 hc rfl
  rcases ht with rfl | ⟨rest, rfl⟩ <;> cases neg
  · simp [lineProtocolDecoder.Int64Field, str_0x, str_neg0x, hasPrefix, B_semicolon, B_minus,
      indexByte_none _ 59 hn, ParseInt_FormatInt j h1 h2]
  · simp [lineProtocolDecoder.Int64Field, str_0x, str_neg0x, hasPrefix, B_semicolon, B_minus,
      indexByte_none _ 59 hn, ParseInt_FormatInt j h1 h2]
  · simp [lineProtocolDecoder.Int64Field, str_0x, str_neg0x, hasPrefix, B_semicolon, B_minus,
      indexByte_append_cons _ rest 59 hn, ParseInt_FormatInt j h1 h2]
  · simp [lineProtocolDecoder.Int64Field, str_0x, str_neg0x, hasPrefix, B_semicolon, B_minus,
      indexByte_append_cons _ rest 59 hn, ParseInt_FormatInt j h1 h2]

theorem Int64Field_token (i : Int) (h1 : -2 ^ 63 ≤ i) (h2 : i < 2 ^ 63)
    (tail lf : List Byte) (ht : sepTail tail) :
    (⟨(if i < 0 then str "-0x" ++ FormatInt (wrapInt64 (-i)) else str "0x" ++ FormatInt i) ++ tail,
        none, lf⟩ : lineProtocolDecoder).Int64Field =
      ⟨true, some i, ⟨tail.drop 1, none, lf⟩⟩ := by
  by_cases hneg : i < 0
  · have hr := wrapInt64_range (-i)
    have h := Int64Field_digits (wrapInt64 (-i)) hr.1 hr.2 true tail lf ht
    simp only [if_true] at h
    rw [if_pos hneg, h]
    have e : wrapInt64 (-wrapInt64 (-i)) = i := by simp only [wrapInt64]; omega
    rw [e]
  · have h := Int64Field_digits i h1 h2 false tail lf ht
    simp only [Bool.false_eq_true, if_false] at h
    rw [if_neg hneg, h]

theorem containsAny_false (s : List Byte) (h : containsAny s (str "\";") = false) :
    (34 : Byte) ∉ s ∧ (59 : Byte) ∉ s := by
  simp only [containsAny, str_dquote_semicolon, List.any_eq_false] at h
  constructor
  · intro hm; exact h 34 hm (by decide)
  · intro hm; exact h 59 hm (by decide)

theorem containsAny_iff (s : List Byte) :
    containsAny s (str "\";") = true ↔ (B '"' ∈ s ∨ B ';' ∈ s) := by
  simp only [containsAny, str_dquote_semicolon, List.any_eq_true, B_dquote, B_semicolon]
  constructor
  · rintro ⟨x, hx, hc⟩
    simp at hc
    rcases hc with rfl | rfl
    · exact Or.inl hx
    · exact Or.inr hx
  · rintro (h | h)
    · exact ⟨34, h, by simp⟩
    · exact ⟨59, h, by simp⟩

theorem hexEncode_not_mem (s : List Byte) :
    (34 : Byte) ∉ hexEncode s ∧ (59 : Byte) ∉ hexEncode s := by
  constructor <;> intro hm <;> obtain ⟨n, hn, h⟩ := hexEncode_mem s _ hm
  · exact (hexDigit_table n hn).2.2.2.2.1 h.symm
  · exact (hexDigit_table n hn).2.2.2.1 h.symm

theorem base64Encode_not_mem (s : List Byte) :
    (39 : Byte) ∉ base64Encode s ∧ (34 : Byte) ∉ base64Encode s ∧
      (59 : Byte) ∉ base64Encode s := by
  refine ⟨?_, ?_, ?_⟩ <;> intro hm <;> rcases base64Encode_mem s _ hm with ⟨n, hn, h⟩ | h
  · exact (b64Char_table n hn).2.1 h.symm
  · exact absurd h (by decide)
  · exact (b64Char_table n hn).2.2.1 h.symm
  · exact absurd h (by decide)
  · exact (b64Char_table n hn).2.2.2.1 h.symm
  · exact absurd h (by decide)

theorem bytesField_plain (s tail lf : List Byte) (q : Byte) (hq : q ∉ s) (hq1 : q ≠ 104)
    (hq2 : q ≠ 98) (ht : sepTail tail) :
    (⟨q :: s ++ q :: tail, none, lf⟩ : lineProtocolDecoder).bytesField q =
      (s, true, ⟨tail.drop 1, none, lf⟩) := by
  simp [lineProtocolDecoder.bytesField, B_h, B_b, hq1, hq2, hasPrefix,
    indexByte_append_cons s tail q hq, eatOptionalComma_tail tail lf ht]

theorem bytesField_hex (s tail lf : List Byte) (ht : sepTail tail) :
    (⟨104 :: 34 :: hexEncode s ++ 34 :: tail, none, lf⟩ : lineProtocolDecoder).bytesField 34 =
      (s, true, ⟨tail.drop 1, none, lf⟩) := by
  simp [lineProtocolDecoder.bytesField, B_h, B_b, hasPrefix,
    indexByte_append_cons (hexEncode s) tail 34 (hexEncode_not_mem s).1,
    eatOptionalComma_tail tail lf ht, hexDecode_hexEncode,
    show ((104 : Byte) : Nat) = 104 from rfl]

theorem bytesField_base64 (s tail lf : List Byte) (ht : sepTail tail) :
    (⟨98 :: 39 :: base64Encode s ++ 39 :: tail, none, lf⟩ : lineProtocolDecoder).bytesField 39 =
      (s, true, ⟨tail.drop 1, none, lf⟩) := by
  simp [lineProtocolDecoder.bytesField, B_h, B_b, hasPrefix,
    indexByte_append_cons (base64Encode s) tail 39 (base64Encode_not_mem s).1,
    eatOptionalComma_tail tail lf ht, base64Decode_base64Encode,
    show ((104 : Byte) : Nat) = 104 from rfl, show ((98 : Byte) : Nat) = 98 from rfl]

/-- The typed read of a value's type on the value's token gives the value
back and leaves the decoder after the separator. -/
theorem read_token (v : Value) (hv : v.wellTyped) (tail lf : List Byte) (ht : sepTail tail) :
    v.kind.read ⟨(v.call : WriteCall Decimal).token decimalOps ++ tail, none, lf⟩ =
      ⟨true, some v, ⟨tail.drop 1, none, lf⟩⟩ := by
  cases v with
  | string s =>
    simp only [Value.kind, Kind.read, Value.call, WriteCall.token, lineProtocolDecoder.StringField,
      B_dquote, str_hdquote, str_dquote]
    by_cases hc : containsAny s (str "\";") = true
    · have h := bytesField_hex s tail lf ht
      simp only [List.cons_append, List.append_assoc, List.nil_append] at h ⊢
      simp [hc, h]
    · have hc' : containsAny s (str "\";") = false := by simpa using hc
      have h := bytesField_plain s tail lf 34 (containsAny_false s hc').1 (by decide)
        (by decide) ht
      simp only [List.cons_append, List.append_assoc, List.nil_append] at h ⊢
      simp [hc', h]
  | uint ui =>
    have h := Uint64Field_token ui hv tail lf ht
    rw [List.append_assoc] at h
    simp [Value.kind, Kind.read, Value.call, WriteCall.token, h]
  | int i =>
    have h := Int64Field_token i hv.1 hv.2 tail lf ht
    simp [Value.kind, Kind.read, Value.call, WriteCall.token, h]
  | bool b =>
    have h := BoolField_token b tail lf ht
    simp [Value.kind, Kind.read, Value.call, WriteCall.token, h]
  | bytes s =>
    have h := bytesField_base64 s tail lf ht
    simp only [List.cons_append, List.append_assoc, List.nil_append] at h
    simp [Value.kind, Kind.read, Value.call, WriteCall.token, lineProtocolDecoder.BytesField,
      str_bquote, str_quote, h]

theorem restTail_sep {F : Type} (ops : FloatOps F) (fs : List (List Byte × WriteCall F)) :
    sepTail (restTail ops fs) ∧ (restTail ops fs).drop 1 = recordText ops fs := by
  cases fs with
  | nil => simp [restTail, sepTail, recordText_nil]
  | cons g gs => simp [restTail, sepTail]

theorem recordText_cons {F : Type} (ops : FloatOps F) (key : List Byte) (c : WriteCall F)
    (fs : List (List Byte × WriteCall F)) :
    recordText ops ((key, c) :: fs) = key ++ 61 :: (c.token ops ++ restTail ops fs) := by
  cases fs with
  | nil => simp [restTail, recordText_single, fieldText, str_equals]
  | cons g gs => simp [restTail, recordText_cons_cons, fieldText, str_equals, str_semicolon]

theorem decodeFields_record (fs : List (List Byte × Value)) :
    (∀ f ∈ fs, validKey f.1 ∧ f.2.wellTyped) → ∀ lf : List Byte,
    ∃ lf', decodeFields (fs.map (fun f => f.2.kind))
      ⟨recordText decimalOps (callsOf fs), none, lf⟩ = some (fs, ⟨[], none, lf'⟩) := by
  induction fs with
  | nil => intro _ lf; exact ⟨lf, by simp [decodeFields, callsOf, recordText_nil]⟩
  | cons f fs ih =>
    intro hfs lf
    obtain ⟨key, v⟩ := f
    have hf := hfs (key, v) (List.mem_cons_self _ _)
    obtain ⟨lf', h'⟩ := ih (fun g hg => hfs g (List.mem_cons_of_mem _ hg)) key
    refine ⟨lf', ?_⟩
    have hs := restTail_sep decimalOps (callsOf fs)
    have e : callsOf ((key, v) :: fs) = (key, v.call) :: callsOf fs := rfl
    simp only [List.map_cons, decodeFields, e, recordText_cons, Next_key _ _ _ hf.1,
      read_token v hf.2 _ _ hs.1, hs.2, h']

/-! ### The map of the query -/

theorem mapGet_mapSet_self (m : FieldMap) (k v : List Byte) : mapGet (mapSet m k v) k = some v := by
  induction m with
  | nil => simp [mapSet, mapGet]
  | cons e m ih =>
    obtain ⟨k0, v0⟩ := e
    by_cases h : k0 = k <;> simp [mapSet, mapGet, h, ih]

theorem mapGet_mapSet_other (m : FieldMap) (k v k' : List Byte) (h : k ≠ k') :
    mapGet (mapSet m k v) k' = mapGet m k' := by
  induction m with
  | nil => simp [mapSet, mapGet, h]
  | cons e m ih =>
    obtain ⟨k0, v0⟩ := e
    by_cases h0 : k0 = k
    · subst h0; simp [mapSet, mapGet, h]
    · by_cases h1 : k0 = k'
      · subst h1; simp [mapSet, mapGet, h0]
      · simp [mapSet, mapGet, h0, h1, ih]

theorem mapSet_length (m : FieldMap) (k v : List Byte) (h : mapGet m k = none) :
    (mapSet m k v).length = m.length + 1 := by
  induction m with
  | nil => simp [mapSet]
  | cons e m ih =>
    obtain ⟨k0, v0⟩ := e
    by_cases h0 : k0 = k
    · simp [mapGet, h0] at h
    · simp only [mapGet, h0, if_false] at h
      simp [mapSet, h0, ih h]

theorem mapSetAll_get_other (kvs : List (List Byte × List Byte)) :
    ∀ (m : FieldMap) (k : List Byte), k ∉ kvs.map Prod.fst →
      mapGet (mapSetAll m kvs) k = mapGet m k := by
  induction kvs with
  | nil => intro m k _; rfl
  | cons kv kvs ih =>
    intro m k hk
    simp only [List.map_cons, List.mem_cons, not_or] at hk
    simp only [mapSetAll, List.foldl_cons]
    have := ih (mapSet m kv.1 kv.2) k hk.2
    simp only [mapSetAll] at this
    rw [this, mapGet_mapSet_other _ _ _ _ (Ne.symm hk.1)]

theorem mapSetAll_get (kvs : List (List Byte × List Byte)) :
    ∀ (m : FieldMap), (kvs.map Prod.fst).Nodup → ∀ kv ∈ kvs,
      mapGet (mapSetAll m kvs) kv.1 = some kv.2 := by
  induction kvs with
  | nil => intro m _ kv hkv; simp at hkv
  | cons e kvs ih =>
    intro m hnd kv hkv
    simp only [List.map_cons, List.nodup_cons] at hnd
    simp only [List.mem_cons] at hkv
    rcases hkv with rfl | hkv
    · have := mapSetAll_get_other kvs (mapSet m kv.1 kv.2) kv.1 hnd.1
      simp only [mapSetAll, List.foldl_cons] at this ⊢
      rw [this, mapGet_mapSet_self]
    · have := ih (mapSet m e.1 e.2) hnd.2 kv hkv
      simpa [mapSetAll] using this

theorem mapSetAll_length (kvs : List (List Byte × List Byte)) :
    ∀ (m : FieldMap), (kvs.map Prod.fst).Nodup → (∀ k ∈ kvs.map Prod.fst, mapGet m k = none) →
      (mapSetAll m kvs).length = m.length + kvs.length := by
  induction kvs with
  | nil => intro m _ _; rfl
  | cons e kvs ih =>
    intro m hnd hm
    simp only [List.map_cons, List.nodup_cons] at hnd
    have h1 : mapGet m e.1 = none := hm e.1 (by simp)
    have h2 : ∀ k ∈ kvs.map Prod.fst, mapGet (mapSet m e.1 e.2) k = none := by
      intro k hk
      have hne : e.1 ≠ k := fun h => hnd.1 (h ▸ hk)
      rw [mapGet_mapSet_other _ _ _ _ hne]
      exact hm k (by simp only [List.map_cons, List.mem_cons]; exact Or.inr hk)
    have := ih (mapSet m e.1 e.2) hnd.2 h2
    simp only [mapSetAll, List.foldl_cons, List.length_cons] at this ⊢
    rw [this, mapSet_length m e.1 e.2 h1]
    omega

/-- The token of a value holds no `;`. -/
theorem token_no_semicolon (v : Value) (hv : v.wellTyped) :
    (59 : Byte) ∉ (v.call : WriteCall Decimal).token decimalOps := by
  cases v with
  | string s =>
    simp only [Value.call, WriteCall.token, str_hdquote, str_dquote]
    by_cases hc : containsAny s (str "\";") = true
    · have := (hexEncode_not_mem s).2
      simp [hc, this]
    · have hc' : containsAny s (str "\";") = false := by simpa using hc
      have := (containsAny_false s hc').2
      simp [hc', this]
  | uint ui =>
    simp only [Value.call, WriteCall.token, str_0x]
    intro h
    simp only [List.cons_append, List.nil_append, List.mem_cons] at h
    rcases h with h | h | h
    · exact absurd h (by decide)
    · exact absurd h (by decide)
    · obtain ⟨n, hn, e⟩ := FormatUint_mem ui hv 59 h
      exact (hexDigit_table n hn).2.2.2.1 e.symm
  | int i =>
    simp only [Value.call, WriteCall.token, str_0x, str_neg0x]
    intro h
    split at h
    · simp only [List.cons_append, List.nil_append, List.mem_cons] at h
      rcases h with h | h | h | h
      · exact absurd h (by decide)
      · exact absurd h (by decide)
      · exact absurd h (by decide)
      · exact FormatInt_mem _ 59 h rfl
    · simp only [List.cons_append, List.nil_append, List.mem_cons] at h
      rcases h with h | h | h
      · exact absurd h (by decide)
      · exact absurd h (by decide)
      · exact FormatInt_mem _ 59 h rfl
  | bool b => cases b <;> simp [Value.call, WriteCall.token, str_one, str_zero]
  | bytes s =>
    have := (base64Encode_not_mem s).2.2
    simp [Value.call, WriteCall.token, str_bquote, str_quote, this]

theorem loadLoop_end (s : List Byte) (fuel off : Nat) (l : lineProtocolQuery)
    (h : s.length ≤ off) : lineProtocolQuery.loadLoop s fuel off l = l := by
  cases fuel with
  | zero => rfl
  | succ fuel => rw [lineProtocolQuery.loadLoop, if_neg (by omega)]

/-- The loop of `Load` over the record of a list of fields, started at the
first byte of the record, assigns the token of each field to its key. -/
theorem loadLoop_record (fs : List (List Byte × Value)) :
    (∀ f ∈ fs, validKey f.1 ∧ f.2.wellTyped) →
    ∀ (pre : List Byte) (fuel : Nat) (l : lineProtocolQuery),
      (recordText decimalOps (callsOf fs)).length ≤ fuel →
      lineProtocolQuery.loadLoop (pre ++ recordText decimalOps (callsOf fs)) fuel pre.length l =
        { l with fields := mapSetAll l.fields (rawOf fs) } := by
  induction fs with
  | nil =>
    intro _ pre fuel l _
    rw [loadLoop_end _ _ _ _ (by simp [callsOf, recordText_nil])]
    rfl
  | cons f fs ih =>
    intro hfs pre fuel l hfuel
    obtain ⟨key, v⟩ := f
    obtain ⟨⟨hk1, hk2, hk3⟩, hv⟩ := hfs (key, v) (List.mem_cons_self _ _)
    have ih' := ih (fun g hg => hfs g (List.mem_cons_of_mem _ hg))
    rw [B_equals] at hk3
    have e : callsOf ((key, v) :: fs) = (key, v.call) :: callsOf fs := rfl
    have er : rawOf ((key, v) :: fs) =
        (key, (v.call : WriteCall Decimal).token decimalOps) :: rawOf fs := rfl
    rw [e, recordText_cons] at hfuel ⊢
    generalize htok : (v.call : WriteCall Decimal).token decimalOps = tok at hfuel er ⊢
    have hts : (59 : Byte) ∉ tok := htok ▸ token_no_semicolon v hv
    cases fuel with
    | zero => simp at hfuel
    | succ fuel =>
      have hd1 : (pre ++ (key ++ 61 :: (tok ++ restTail decimalOps (callsOf fs)))).drop pre.length
          = key ++ 61 :: (tok ++ restTail decimalOps (callsOf fs)) := List.drop_left _ _
      have hd2 : (pre ++ (key ++ 61 :: (tok ++ restTail decimalOps (callsOf fs)))).drop
          (pre.length + (key.length + 1)) = tok ++ restTail decimalOps (callsOf fs) := by
        have : pre ++ (key ++ 61 :: (tok ++ restTail decimalOps (callsOf fs))) =
            (pre ++ key ++ [61]) ++ (tok ++ restTail decimalOps (callsOf fs)) := by simp
        rw [this]
        exact List.drop_left' (by simp)
      rw [lineProtocolQuery.loadLoop, if_pos (by simp), hd1, B_equals,
        indexByte_append_cons key _ 61 hk3]
      simp only [List.take_left, hd2, MaxKeyLength, B_semicolon]
      simp only [] at hk1 hk2
      rw [if_neg (by omega)]
      cases fs with
      | nil =>
        simp only [callsOf, List.map_nil, restTail, List.isEmpty_nil, if_true, List.append_nil,
          indexByte_none tok 59 hts]
        rw [loadLoop_end _ _ _ _ (le_refl _), er]
        rfl
      | cons g gs =>
        have hrt : restTail decimalOps (callsOf (g :: gs)) =
            59 :: recordText decimalOps (callsOf (g :: gs)) := by
          simp [restTail, callsOf]
        rw [hrt] at hfuel ⊢
        simp only [indexByte_append_cons tok _ 59 hts, List.take_left]
        have hs : pre ++ (key ++ 61 :: (tok ++ 59 :: recordText decimalOps (callsOf (g :: gs)))) =
            (pre ++ key ++ [61] ++ tok ++ [59]) ++ recordText decimalOps (callsOf (g :: gs)) := by
          simp
        have hl : pre.length + (key.length + 1) + (tok.length + 1) =
            (pre ++ key ++ [61] ++ tok ++ [59]).length := by simp; omega
        rw [hs, hl, ih' _ fuel _ (by simp at hfuel; omega), er]
        rfl

theorem callsOf_scalar (fs : List (List Byte × Value))
    (h : ∀ f ∈ fs, validKey f.1 ∧ f.2.wellTyped) :
    ∀ f ∈ callsOf fs, validKey f.1 ∧ f.2.scalar = true := by
  intro f hf
  simp only [callsOf, List.mem_map] at hf
  obtain ⟨g, hg, rfl⟩ := hf
  refine ⟨(h g hg).1, ?_⟩
  cases g.2 <;> rfl

theorem encodeFields_final (fs : List (List Byte × Value))
    (h : ∀ f ∈ fs, validKey f.1 ∧ f.2.wellTyped) :
    (encodeFields NewEncoder fs).Final = Except.ok (recordText decimalOps (callsOf fs)) := by
  obtain ⟨he, hb⟩ := writeAll_buf decimalOps (callsOf fs) NewEncoder rfl (callsOf_scalar fs h)
  have hb' : (writeAll decimalOps NewEncoder (callsOf fs)).buf =
      recordText decimalOps (callsOf fs) := by
    rw [hb]
    cases hfs : callsOf fs with
    | nil => simp [NewEncoder, recordText_nil]
    | cons g gs => simp [NewEncoder, separator]
  simp only [encodeFields, lineProtocolEncoder.Final]
  change (match (writeAll decimalOps NewEncoder (callsOf fs)).Err with
    | some e => Except.error e
    | none => Except.ok (writeAll decimalOps NewEncoder (callsOf fs)).buf) = _
  rw [he, hb']

/-- C1: fields with valid keys and values of type bool, int64, uint64, string
or bytes, written in order to a fresh encoder, give a record on which a fresh
decoder, driven by `Next` and the typed read of each field, yields the written
keys and values in the written order with every call returning true; after the
last field `Next` returns false and the error stays nil. -/
theorem encode_decode_round_trip (fs : List (List Byte × Value))
    (h : ∀ f ∈ fs, validKey f.1 ∧ f.2.wellTyped) :
    ∃ s lf, (encodeFields NewEncoder fs).Final = Except.ok s ∧
      decodeFields (fs.map (fun f => f.2.kind)) (NewDecoder s) = some (fs, ⟨[], none, lf⟩) ∧
      (⟨[], none, lf⟩ : lineProtocolDecoder).Next = ⟨false, none, ⟨[], none, lf⟩⟩ ∧
      (⟨[], none, lf⟩ : lineProtocolDecoder).Next.dec.Error = none := by
  obtain ⟨lf, hd⟩ := decodeFields_record fs h []
  refine ⟨recordText decimalOps (callsOf fs), lf, encodeFields_final fs h, hd, ?_, ?_⟩ <;>
  simp [lineProtocolDecoder.Next, indexByte, lineProtocolDecoder.Error]

theorem encode_decode_round_trip_witness :
    (∀ f ∈ sampleFields, validKey f.1 ∧ f.2.wellTyped) ∧
    ∃ s lf, (encodeFields NewEncoder sampleFields).Final = Except.ok s ∧
      decodeFields (sampleFields.map (fun f => f.2.kind)) (NewDecoder s) =
        some (sampleFields, ⟨[], none, lf⟩) ∧
      (⟨[], none, lf⟩ : lineProtocolDecoder).Next = ⟨false, none, ⟨[], none, lf⟩⟩ ∧
      (⟨[], none, lf⟩ : lineProtocolDecoder).Next.dec.Error = none :=
  ⟨by decide, encode_decode_round_trip sampleFields (by decide)⟩

theorem NewQuery_record (fs : List (List Byte × Value))
    (h : ∀ f ∈ fs, validKey f.1 ∧ f.2.wellTyped) :
    NewQuery (recordText decimalOps (callsOf fs)) =
      ⟨⟨[], none, []⟩, mapSetAll [] (rawOf fs)⟩ := by
  have := loadLoop_record fs h [] (recordText decimalOps (callsOf fs)).length
    ⟨⟨[], none, []⟩, []⟩ (le_refl _)
  simp only [List.nil_append, List.length_nil] at this
  simp only [NewQuery, lineProtocolQuery.Load, this]

/-- C3: the encoder writes the value 1.500 of the test (i = 1500) as
`k=f1.500`, but `Float64Field` skips two bytes after finding the marker `f`
of one byte, so the text given to `ParseFloat` is `.500`, for every float
library, and the value stored is 0.500 instead of 1.500. -/
theorem float_round_trip_drops_digit :
    (NewEncoder.WriteFloat64 decimalOps (str "k") ⟨1500, 3⟩ 3).Final =
      Except.ok (str "k=f1.500") ∧
    (NewDecoder (str "k=f1.500")).Next =
      ⟨true, some (str "k"), ⟨str "f1.500", none, str "k"⟩⟩ ∧
    (⟨str "f1.500", none, str "k"⟩ : lineProtocolDecoder).Float64Field decimalOps =
      some ⟨true, some ⟨500, 3⟩, ⟨[], none, str "k"⟩⟩ ∧
    ∀ (F : Type) (ops : FloatOps F),
      (⟨str "f1.500", none, str "k"⟩ : lineProtocolDecoder).Float64Field ops =
        some ⟨true,
          if (ops.ParseFloat (str ".500")).2 = none then some (ops.ParseFloat (str ".500")).1
          else none,
          if (ops.ParseFloat (str ".500")).2 = none then ⟨[], none, str "k"⟩
          else ⟨str ".500", none, str "k"⟩⟩ := by
  refine ⟨rfl, by decide, by decide, ?_⟩
  intro F ops
  have e1 : str "f1.500" = [102, 49, 46, 53, 48, 48] := by decide
  have e2 : str ".500" = [46, 53, 48, 48] := by decide
  have e3 : str "k" = [107] := by decide
  have e4 : indexByte [46, 53, 48, 48] 59 = none := by decide
  simp only [lineProtocolDecoder.Float64Field, e1, e2, e3, str_f, hasPrefix, B_minus,
    B_semicolon]
  simp [e4, lineProtocolDecoder.withHintError, lineProtocolDecoder.hintErr,
    lineProtocolDecoder.WithError]
  split <;> simp_all

/-- For every `int64` but the least, the token of `WriteInt64` is `-` when the
value is negative, then `0x`, then the hex digits of the magnitude. -/
theorem int64_token_other (i : Int) (h1 : -2 ^ 63 < i) (h2 : i < 2 ^ 63) :
    (WriteCall.WriteInt64 i : WriteCall Decimal).token decimalOps =
      (if i < 0 then [B '-'] else []) ++ str "0x" ++ FormatUint i.natAbs ∧
    (∀ c ∈ FormatUint i.natAbs, c ∈ str "0123456789abcdef") ∧
    ParseUint (FormatUint i.natAbs) = (i.natAbs, none) := by
  have hlt : i.natAbs < 2 ^ 64 := by omega
  refine ⟨?_, ?_, ParseUint_FormatUint _ hlt⟩
  · by_cases hneg : i < 0
    · have e : wrapInt64 (-i) = -i := by simp only [wrapInt64]; omega
      have hd : decide (0 < i) = false := by simp; omega
      have hu : toUint64 (-i) = i.natAbs := by simp only [toUint64]; omega
      simp [WriteCall.token, hneg, e, FormatInt, FormatUint, hd, hu, str_neg0x, str_0x, B_minus]
    · have hd : decide (i < 0) = false := by simp [hneg]
      have hu : toUint64 i = i.natAbs := by simp only [toUint64]; omega
      simp [WriteCall.token, hneg, FormatInt, FormatUint, hd, hu, str_0x]
  · intro c hc
    obtain ⟨n, hn, rfl⟩ := FormatUint_mem _ hlt c hc
    exact (hexDigit_table n hn).1

/-- C4: for the least `int64` the negation wraps and `FormatInt` writes its
own sign, so the token is `-0x-8000000000000000`: the run after `0x` is not
made of hex digits only. -/
theorem int64_min_token :
    (NewEncoder.WriteInt64 (str "k") (-9223372036854775808)).Final =
      Except.ok (str "k=-0x-8000000000000000") ∧
    (WriteCall.WriteInt64 (-9223372036854775808) : WriteCall Decimal).token decimalOps =
      str "-0x-8000000000000000" := by
  exact ⟨rfl, by decide⟩

/-- C10: on the input `x` a fresh decoder's `BoolField` meets a byte that is
neither `0` nor `1`, yet returns true and records no error; likewise
`Uint64Field` on an input that does not start with `0x`; a later `Next` on the
same decoder then still returns true. -/
theorem decoder_failure_not_recorded :
    (NewDecoder (str "x")).BoolField = ⟨true, none, NewDecoder (str "x")⟩ ∧
    (NewDecoder (str "x")).BoolField.dec.Error = none ∧
    (NewDecoder (str "k=1")).Uint64Field = ⟨true, none, NewDecoder (str "k=1")⟩ ∧
    (NewDecoder (str "k=1")).Uint64Field.dec.Error = none ∧
    (NewDecoder (str "k=1")).Uint64Field.dec.Next =
      ⟨true, some (str "k"), ⟨str "1", none, str "k"⟩⟩ := by
  decide

/-- C5: on an encoder without error, a write whose key contains `=`, is empty
or is longer than 255 bytes records an error and leaves the buffer and the
first-field flag as they were; a scalar write with a key of 1 to 255 bytes
without `=` records no error. -/
theorem key_rejection {F : Type} (ops : FloatOps F) (l : lineProtocolEncoder) (key : List Byte)
    (c : WriteCall F) (hl : l.Error = none) :
    ((B '=' ∈ key ∨ key.length = 0 ∨ key.length > 255) →
      (c.run ops l key).Error ≠ none ∧ (c.run ops l key).buf = l.buf ∧
        (c.run ops l key).prev = l.prev) ∧
    (validKey key → c.scalar = true → (c.run ops l key).Error = none) := by
  constructor
  · intro hk
    obtain ⟨e, he⟩ := checkState_invalid l key hl hk
    cases c <;>
    simp [WriteCall.run, lineProtocolEncoder.WriteBool, lineProtocolEncoder.WriteString,
      lineProtocolEncoder.WriteBytes, lineProtocolEncoder.WriteInt64,
      lineProtocolEncoder.WriteUint64, lineProtocolEncoder.WriteFloat64,
      lineProtocolEncoder.WriteJson, lineProtocolEncoder.WriteProto,
      lineProtocolEncoder.Error, he]
  · intro hk hs
    exact (run_scalar ops l key c hl hk hs).2.2

theorem key_rejection_witness :
    ((NewEncoder.WriteBool (str "a=b") true).Error ≠ none ∧
      (NewEncoder.WriteBool (str "a=b") true).buf = [] ∧
      (NewEncoder.WriteBool (str "a=b") true).prev = false) ∧
    (NewEncoder.WriteBool (str "ab") true).Error = none :=
  ⟨(key_rejection decimalOps NewEncoder (str "a=b") (WriteCall.WriteBool true) rfl).1
      (by decide),
    (key_rejection decimalOps NewEncoder (str "ab") (WriteCall.WriteBool true) rfl).2
      (by decide) rfl⟩

/-- C6: on an encoder that holds an error, a write with any key and any value
changes nothing: the buffer, the first-field flag and the error stay as they
were. -/
theorem poisoned_encoder_sticky {F : Type} (ops : FloatOps F) (l : lineProtocolEncoder)
    (key : List Byte) (c : WriteCall F) (h : l.Error ≠ none) :
    c.run ops l key = l ∧ (c.run ops l key).buf = l.buf ∧
      (c.run ops l key).prev = l.prev ∧ (c.run ops l key).Error = l.Error := by
  have hr : c.run ops l key = l := by
    cases c <;>
    simp [WriteCall.run, lineProtocolEncoder.WriteBool, lineProtocolEncoder.WriteString,
      lineProtocolEncoder.WriteBytes, lineProtocolEncoder.WriteInt64,
      lineProtocolEncoder.WriteUint64, lineProtocolEncoder.WriteFloat64,
      lineProtocolEncoder.WriteJson, lineProtocolEncoder.WriteProto,
      checkState_poisoned l key h]
  simp [hr]

theorem poisoned_encoder_sticky_witness :
    (NewEncoder.WriteBool (str "a=b") true).Error ≠ none ∧
    ((NewEncoder.WriteBool (str "a=b") true).WriteString (str "k") (str "v") =
        NewEncoder.WriteBool (str "a=b") true ∧
      ((NewEncoder.WriteBool (str "a=b") true).WriteString (str "k") (str "v")).buf = [] ∧
      ((NewEncoder.WriteBool (str "a=b") true).WriteString (str "k") (str "v")).prev = false ∧
      ((NewEncoder.WriteBool (str "a=b") true).WriteString (str "k") (str "v")).Error =
        some (Error.keyContainsEq (str "a=b"))) :=
  ⟨by decide,
    poisoned_encoder_sticky decimalOps (NewEncoder.WriteBool (str "a=b") true) (str "k")
      (WriteCall.WriteString (str "v")) (by decide)⟩

/-- C7: scalar fields with valid keys written to a fresh encoder give, as
`Final()`, the texts `key=token` joined by exactly one `;` between
consecutive fields, with nothing before the first and nothing after the last;
no field gives the empty string. -/
theorem record_framing {F : Type} (ops : FloatOps F) (fs : List (List Byte × WriteCall F))
    (h : ∀ f ∈ fs, validKey f.1 ∧ f.2.scalar = true) :
    (writeAll ops NewEncoder fs).Final =
      Except.ok ((str ";").intercalate (fs.map (fun f => f.1 ++ str "=" ++ f.2.token ops))) := by
  obtain ⟨he, hb⟩ := writeAll_buf ops fs NewEncoder rfl h
  have hb' : (writeAll ops NewEncoder fs).buf = recordText ops fs := by
    rw [hb]
    cases fs with
    | nil => simp [NewEncoder, recordText_nil]
    | cons g gs => simp [NewEncoder, separator]
  change (match (writeAll ops NewEncoder fs).Err with
    | some e => Except.error e
    | none => Except.ok (writeAll ops NewEncoder fs).buf) = _
  rw [he, hb']
  rfl

theorem record_framing_witness :
    (∀ f ∈ [(str "a", WriteCall.WriteBool true), (str "b", WriteCall.WriteInt64 (-42)),
        (str "c", WriteCall.WriteString (str "hi;there")),
        (str "d", WriteCall.WriteFloat64 (⟨1500, 3⟩ : Decimal) 3)],
      validKey f.1 ∧ f.2.scalar = true) ∧
    (writeAll decimalOps NewEncoder
        [(str "a", WriteCall.WriteBool true), (str "b", WriteCall.WriteInt64 (-42)),
          (str "c", WriteCall.WriteString (str "hi;there")),
          (str "d", WriteCall.WriteFloat64 (⟨1500, 3⟩ : Decimal) 3)]).Final =
      Except.ok ((str ";").intercalate
        ([(str "a", WriteCall.WriteBool true), (str "b", WriteCall.WriteInt64 (-42)),
          (str "c", WriteCall.WriteString (str "hi;there")),
          (str "d", WriteCall.WriteFloat64 (⟨1500, 3⟩ : Decimal) 3)].map
            (fun f => f.1 ++ str "=" ++ f.2.token decimalOps))) :=
  ⟨by decide, record_framing decimalOps _ (by decide)⟩

theorem hexEncode_eq_lowerHex (s : List Byte) : hexEncode s = lowerHex s := by
  have ht : ∀ n, n < 16 → hexDigit n = (str "0123456789abcdef").getD n 0 := by decide
  induction s with
  | nil => rfl
  | cons b bs ih =>
    have h1 := ht (b.val / 16) (by have := b.isLt; omega)
    have h2 := ht (b.val % 16) (by omega)
    simp only [hexEncode, ih, h1, h2, lowerHex, List.flatMap_cons, List.cons_append,
      List.nil_append]

/-- C8: on an encoder without error and with a valid key, `WriteString` appends
after `key=` the token `h"` + lowercase hex of the bytes + `"` when the string
holds `"` or `;`, and `"` + the string + `"` otherwise; the payload between
the quotes holds neither `"` nor `;`.  With key `k`, the string `a"b;c` gives
`k=h"6122623b63"` and `plain` gives `k="plain"`. -/
theorem string_wire_form (l : lineProtocolEncoder) (key s : List Byte) (hl : l.Error = none)
    (hk : validKey key) :
    (l.WriteString key s).buf = l.buf ++ separator l.prev ++ key ++ str "=" ++
      (if B '"' ∈ s ∨ B ';' ∈ s then str "h\"" ++ lowerHex s ++ str "\""
        else str "\"" ++ s ++ str "\"") ∧
    (∀ c ∈ (if B '"' ∈ s ∨ B ';' ∈ s then lowerHex s else s), c ≠ B '"' ∧ c ≠ B ';') ∧
    (NewEncoder.WriteString (str "k") (str "a\"b;c")).buf = str "k=h\"6122623b63\"" ∧
    (NewEncoder.WriteString (str "k") (str "plain")).buf = str "k=\"plain\"" := by
  refine ⟨?_, ?_, by decide, by decide⟩
  · have h := (run_scalar decimalOps l key (WriteCall.WriteString s) hl hk rfl).1
    simp only [WriteCall.run, WriteCall.token] at h
    rw [h, hexEncode_eq_lowerHex]
    by_cases hc : B '"' ∈ s ∨ B ';' ∈ s
    · rw [if_pos hc, if_pos ((containsAny_iff s).mpr hc)]
    · rw [if_neg hc, if_neg (fun h' => hc ((containsAny_iff s).mp h'))]
  · intro c hc
    rw [B_dquote, B_semicolon] at hc ⊢
    by_cases hq : (34 : Byte) ∈ s ∨ (59 : Byte) ∈ s
    · rw [if_pos hq, ← hexEncode_eq_lowerHex] at hc
      have := hexEncode_not_mem s
      exact ⟨fun e => this.1 (e ▸ hc), fun e => this.2 (e ▸ hc)⟩
    · rw [if_neg hq] at hc
      exact ⟨fun e => hq (Or.inl (e ▸ hc)), fun e => hq (Or.inr (e ▸ hc))⟩

theorem string_wire_form_witness :
    (NewEncoder.WriteBool (str "a") true).Error = none ∧ validKey (str "c") ∧
    (((NewEncoder.WriteBool (str "a") true).WriteString (str "c") (str "hi;there")).buf =
      (NewEncoder.WriteBool (str "a") true).buf ++
        separator (NewEncoder.WriteBool (str "a") true).prev ++ str "c" ++ str "=" ++
      (if B '"' ∈ str "hi;there" ∨ B ';' ∈ str "hi;there" then
          str "h\"" ++ lowerHex (str "hi;there") ++ str "\""
        else str "\"" ++ str "hi;there" ++ str "\"") ∧
    (∀ c ∈ (if B '"' ∈ str "hi;there" ∨ B ';' ∈ str "hi;there" then lowerHex (str "hi;there")
        else str "hi;there"), c ≠ B '"' ∧ c ≠ B ';') ∧
    (NewEncoder.WriteString (str "k") (str "a\"b;c")).buf = str "k=h\"6122623b63\"" ∧
    (NewEncoder.WriteString (str "k") (str "plain")).buf = str "k=\"plain\"") :=
  ⟨by decide, by decide,
    string_wire_form (NewEncoder.WriteBool (str "a") true) (str "c") (str "hi;there")
      (by decide) (by decide)⟩

/-- C9: on an encoder without error and with a valid key, `WriteBytes` appends
after `key=` the token `b'` + padded URL-safe base64 of the bytes + `'`,
whatever the bytes are; the payload is made of characters of the URL-safe
alphabet and `=` only, holds none of `'`, `"` and `;`, has four characters for
every three bytes or part of three, and decodes to the bytes. -/
theorem bytes_wire_form (l : lineProtocolEncoder) (key b : List Byte) (hl : l.Error = none)
    (hk : validKey key) :
    (l.WriteBytes key b).buf = l.buf ++ separator l.prev ++ key ++ str "=" ++
      (str "b'" ++ base64Encode b ++ str "'") ∧
    (∀ c ∈ base64Encode b,
      (c ∈ str "ABCDEFGHIJKLMNOPQRSTUVWXYZabcdefghijklmnopqrstuvwxyz0123456789-_" ∨ c = B '=') ∧
      c ≠ 39 ∧ c ≠ B '"' ∧ c ≠ B ';') ∧
    (base64Encode b).length = 4 * ((b.length + 2) / 3) ∧
    base64Decode (base64Encode b) = (b, none) := by
  refine ⟨?_, ?_, base64Encode_length b, base64Decode_base64Encode b⟩
  · exact (run_scalar decimalOps l key (WriteCall.WriteBytes b) hl hk rfl).1
  · intro c hc
    have hn := base64Encode_not_mem b
    rw [B_dquote, B_semicolon, B_equals]
    refine ⟨?_, fun e => hn.1 (e ▸ hc), fun e => hn.2.1 (e ▸ hc), fun e => hn.2.2 (e ▸ hc)⟩
    rcases base64Encode_mem b c hc with ⟨n, hn', rfl⟩ | h
    · exact Or.inl (b64Char_table n hn').2.2.2.2.2.2.2
    · exact Or.inr h

theorem bytes_wire_form_witness :
    NewEncoder.Error = none ∧ validKey (str "d") ∧
    ((NewEncoder.WriteBytes (str "d") (0 :: str "'\";")).buf =
      NewEncoder.buf ++ separator NewEncoder.prev ++ str "d" ++ str "=" ++
        (str "b'" ++ base64Encode (0 :: str "'\";") ++ str "'") ∧
    (∀ c ∈ base64Encode (0 :: str "'\";"),
      (c ∈ str "ABCDEFGHIJKLMNOPQRSTUVWXYZabcdefghijklmnopqrstuvwxyz0123456789-_" ∨ c = B '=') ∧
      c ≠ 39 ∧ c ≠ B '"' ∧ c ≠ B ';') ∧
    (base64Encode (0 :: str "'\";")).length = 4 * (((0 :: str "'\";").length + 2) / 3) ∧
    base64Decode (base64Encode (0 :: str "'\";")) = (0 :: str "'\";", none)) :=
  ⟨by decide, by decide, bytes_wire_form NewEncoder (str "d") (0 :: str "'\";") (by decide)
    (by decide)⟩

theorem hintErr_none (l : lineProtocolDecoder) (err : Option Error) : l.hintErr err = none := by
  cases err <;> simp [lineProtocolDecoder.hintErr, Wrapf]

theorem withHintError_eq (l : lineProtocolDecoder) (err : Option Error) :
    l.withHintError err = (decide (l.Err = none), l) := by
  simp [lineProtocolDecoder.withHintError, hintErr_none, lineProtocolDecoder.WithError]

theorem eatOptionalComma_Err (l : lineProtocolDecoder) :
    l.eatOptionalComma.2.Err = l.Err := by
  unfold lineProtocolDecoder.eatOptionalComma
  split
  · rfl
  · split <;> simp [withHintError_eq]

theorem bytesField_Err (l : lineProtocolDecoder) (quote : Byte) :
    (l.bytesField quote).2.2.Err = l.Err := by
  unfold lineProtocolDecoder.bytesField
  simp only [withHintError_eq]
  repeat' split
  all_goals simp_all [eatOptionalComma_Err]

theorem Next_Err (l : lineProtocolDecoder) : l.Next.dec.Err = l.Err := by
  unfold lineProtocolDecoder.Next
  simp only [withHintError_eq]
  repeat' split
  all_goals simp_all

theorem BoolField_Err (l : lineProtocolDecoder) : l.BoolField.dec.Err = l.Err := by
  unfold lineProtocolDecoder.BoolField
  simp only [withHintError_eq]
  repeat' split
  all_goals simp_all [eatOptionalComma_Err]

theorem Int64Field_Err (l : lineProtocolDecoder) : l.Int64Field.dec.Err = l.Err := by
  unfold lineProtocolDecoder.Int64Field
  simp only [withHintError_eq]
  repeat' split
  all_goals simp_all

theorem Uint64Field_Err (l : lineProtocolDecoder) : l.Uint64Field.dec.Err = l.Err := by
  unfold lineProtocolDecoder.Uint64Field
  simp only [withHintError_eq]
  repeat' split
  all_goals simp_all

theorem StringField_Err (l : lineProtocolDecoder) : l.StringField.dec.Err = l.Err := by
  have h := bytesField_Err l (B '"')
  unfold lineProtocolDecoder.StringField
  simp only [withHintError_eq]
  split
  all_goals simp_all

theorem BytesField_Err (l : lineProtocolDecoder) : l.BytesField.dec.Err = l.Err := by
  have h := bytesField_Err l 39
  unfold lineProtocolDecoder.BytesField
  simp only [withHintError_eq]
  split
  all_goals simp_all

/-- C20: `hintErr` returns nil for every error, so `withHintError` changes
nothing and returns whether `Err` is nil; hence on a decoder whose `Err` is
nil, `Err` is still nil after `Next`, `BoolField`, `Int64Field`,
`Uint64Field`, `StringField` and `BytesField` on any input, while
`WithError` with an error that is not nil records it. -/
theorem hintErr_discards_every_error (l : lineProtocolDecoder) (hl : l.Error = none) :
    (∀ (d : lineProtocolDecoder) (err : Option Error),
      d.hintErr err = none ∧ d.withHintError err = (decide (d.Err = none), d)) ∧
    l.Next.dec.Error = none ∧ l.BoolField.dec.Error = none ∧ l.Int64Field.dec.Error = none ∧
    l.Uint64Field.dec.Error = none ∧ l.StringField.dec.Error = none ∧
    l.BytesField.dec.Error = none ∧
    ∀ e : Error, (l.WithError (some e)).1 = false ∧ (l.WithError (some e)).2.Error = some e := by
  have hl' : l.Err = none := hl
  refine ⟨fun d err => ⟨hintErr_none d err, withHintError_eq d err⟩, ?_, ?_, ?_, ?_, ?_, ?_, ?_⟩
  · exact (Next_Err l).trans hl'
  · exact (BoolField_Err l).trans hl'
  · exact (Int64Field_Err l).trans hl'
  · exact (Uint64Field_Err l).trans hl'
  · exact (StringField_Err l).trans hl'
  · exact (BytesField_Err l).trans hl'
  · intro e
    simp [lineProtocolDecoder.WithError, lineProtocolDecoder.Error, hl']

theorem hintErr_discards_every_error_witness :
    (NewDecoder (str "k=x")).Error = none ∧
    ((∀ (d : lineProtocolDecoder) (err : Option Error),
      d.hintErr err = none ∧ d.withHintError err = (decide (d.Err = none), d)) ∧
    (NewDecoder (str "k=x")).Next.dec.Error = none ∧
    (NewDecoder (str "k=x")).BoolField.dec.Error = none ∧
    (NewDecoder (str "k=x")).Int64Field.dec.Error = none ∧
    (NewDecoder (str "k=x")).Uint64Field.dec.Error = none ∧
    (NewDecoder (str "k=x")).StringField.dec.Error = none ∧
    (NewDecoder (str "k=x")).BytesField.dec.Error = none ∧
    ∀ e : Error, ((NewDecoder (str "k=x")).WithError (some e)).1 = false ∧
      ((NewDecoder (str "k=x")).WithError (some e)).2.Error = some e) :=
  ⟨rfl, hintErr_discards_every_error (NewDecoder (str "k=x")) rfl⟩

/-- C18: on an encoder without error `Final()` returns the buffer, and so does
every repetition, the call being a function of the encoder that changes
nothing; on an encoder with an error it fails with that error; it fails
exactly when the encoder holds an error. -/
theorem Final_iff_unpoisoned (l : lineProtocolEncoder) :
    (l.Error = none → l.Final = Except.ok l.buf) ∧
    (∀ e, l.Error = some e → l.Final = Except.error e) ∧
    ((∃ e, l.Final = Except.error e) ↔ l.Error ≠ none) ∧
    ((∃ s, l.Final = Except.ok s) ↔ l.Error = none) := by
  cases h : l.Err with
  | none => simp [lineProtocolEncoder.Final, lineProtocolEncoder.Error, h]
  | some e => simp [lineProtocolEncoder.Final, lineProtocolEncoder.Error, h]

theorem Final_iff_unpoisoned_witness :
    (NewEncoder.WriteBool (str "a") true).Final = Except.ok (str "a=1") ∧
    (NewEncoder.WriteBool (str "a=b") true).Final =
      Except.error (Error.keyContainsEq (str "a=b")) :=
  ⟨((Final_iff_unpoisoned (NewEncoder.WriteBool (str "a") true)).1 rfl).trans rfl,
    (Final_iff_unpoisoned (NewEncoder.WriteBool (str "a=b") true)).2.1 _ rfl⟩

/-- C16: on a non-empty input without `=`, `Next` of a fresh decoder returns
false, stores nothing, leaves the decoder as it was and the error nil, while
the query built on the same input holds the error `ErrBroken` wrapped with
offset 0 and an empty map. -/
theorem no_equals_divergence (s : List Byte) (h1 : s ≠ []) (h2 : B '=' ∉ s) :
    (NewDecoder s).Next = ⟨false, none, NewDecoder s⟩ ∧
    (NewDecoder s).Next.dec.Error = none ∧ (NewDecoder s).Next.dec.reading = s ∧
    (NewQuery s).Error = some (Error.atOffset Error.ErrBroken 0) ∧
    (NewQuery s).Fields = [] := by
  have hi : indexByte s (B '=') = none := indexByte_none s _ h2
  have hlen : 0 < s.length := List.length_pos.mpr h1
  have hn : (NewDecoder s).Next = ⟨false, none, NewDecoder s⟩ := by
    simp [lineProtocolDecoder.Next, NewDecoder, hi]
  refine ⟨hn, ?_, ?_, ?_, ?_⟩
  · rw [hn]; rfl
  · rw [hn]; rfl
  · obtain ⟨n, hn'⟩ : ∃ n, s.length = n + 1 := ⟨s.length - 1, by omega⟩
    simp [NewQuery, lineProtocolQuery.Load, hn', lineProtocolQuery.loadLoop, hi,
      lineProtocolQuery.hintErr, Wrapf, lineProtocolQuery.Error]
  · obtain ⟨n, hn'⟩ : ∃ n, s.length = n + 1 := ⟨s.length - 1, by omega⟩
    simp [NewQuery, lineProtocolQuery.Load, hn', lineProtocolQuery.loadLoop, hi,
      lineProtocolQuery.hintErr, Wrapf, lineProtocolQuery.Fields]

theorem no_equals_divergence_witness :
    (str "abc" ≠ [] ∧ B '=' ∉ str "abc") ∧
    ((NewDecoder (str "abc")).Next = ⟨false, none, NewDecoder (str "abc")⟩ ∧
    (NewDecoder (str "abc")).Next.dec.Error = none ∧
    (NewDecoder (str "abc")).Next.dec.reading = str "abc" ∧
    (NewQuery (str "abc")).Error = some (Error.atOffset Error.ErrBroken 0) ∧
    (NewQuery (str "abc")).Fields = []) :=
  ⟨by decide, no_equals_divergence (str "abc") (by decide) (by decide)⟩

theorem indexByte_some (s : List Byte) (c : Byte) :
    ∀ i, indexByte s c = some i →
      i < s.length ∧ c ∉ s.take i ∧ s.drop i = c :: s.drop (i + 1) := by
  induction s with
  | nil => intro i h; simp [indexByte] at h
  | cons x xs ih =>
    intro i h
    by_cases hx : x = c
    · simp only [indexByte, hx, if_true, Option.some.injEq] at h
      subst h; subst hx
      simp
    · simp only [indexByte, hx, if_false, Option.map_eq_some'] at h
      obtain ⟨j, hj, rfl⟩ := h
      obtain ⟨h1, h2, h3⟩ := ih j hj
      refine ⟨by simp; omega, ?_, ?_⟩
      · simp only [List.take_succ_cons, List.mem_cons, not_or]
        exact ⟨fun e => hx e.symm, h2⟩
      · simpa using h3

/-- On a decoder without error whose input has more than 255 bytes before the
first `=`, `Next` returns true, stores no key and leaves the decoder as it
was. -/
theorem Next_long_key (l : lineProtocolDecoder) (i : Nat) (hl : l.Err = none)
    (hi : indexByte l.reading (B '=') = some i) (h : i > 255) :
    l.Next = ⟨true, none, l⟩ := by
  simp [lineProtocolDecoder.Next, hl, hi, MaxKeyLength, h, withHintError_eq]

/-- C11: on the fresh decoder of an input with 256 bytes before its first `=`,
`Next` returns true, not false, stores no key, records no error and leaves the
input where it was. -/
theorem Next_long_key_not_rejected :
    indexByte longKeyInput (B '=') = some 256 ∧
    (NewDecoder longKeyInput).Next = ⟨true, none, NewDecoder longKeyInput⟩ ∧
    (NewDecoder longKeyInput).Next.dec.Error = none := by
  have hi : indexByte longKeyInput (B '=') = some 256 := by
    have e : longKeyInput = List.replicate 256 (B 'a') ++ B '=' :: str "1" := rfl
    rw [e, indexByte_append_cons (List.replicate 256 (B 'a')) (str "1") (B '=')
      (by simp only [List.mem_replicate]; decide), List.length_replicate]
  have hn := Next_long_key (NewDecoder longKeyInput) 256 rfl hi (by norm_num)
  exact ⟨hi, hn, by rw [hn]; rfl⟩

/-- C12: on the queries of `k=`, `k=0x` and `k=h`, whose raw value for `k` is
not a token of any type, the lookups `BoolField`, `Int64Field`, `Uint64Field`,
`StringField` and `BytesField` of `k` return true. -/
theorem lookup_accepts_unparsable :
    (NewQuery (str "k=")).Error = none ∧ (NewQuery (str "k=")).Fields = [(str "k", [])] ∧
    ((NewQuery (str "k=")).BoolField (str "k")).1 = true ∧
    ((NewQuery (str "k=")).Int64Field (str "k")).1 = true ∧
    ((NewQuery (str "k=")).Uint64Field (str "k")).1 = true ∧
    ((NewQuery (str "k=")).StringField (str "k")).1 = true ∧
    ((NewQuery (str "k=")).BytesField (str "k")).1 = true ∧
    (NewQuery (str "k=0x")).Error = none ∧
    ((NewQuery (str "k=0x")).Int64Field (str "k")).1 = true ∧
    ((NewQuery (str "k=0x")).Uint64Field (str "k")).1 = true ∧
    (NewQuery (str "k=h")).Error = none ∧
    ((NewQuery (str "k=h")).StringField (str "k")).1 = true ∧
    ((NewQuery (str "k=h")).StringField (str "k")).2.1 = some [] := by
  decide

/-- C17: `Int64Field` stores a value for tokens with a sign inside the hex
run: `0x-5` gives -5, `-0x-5` gives 5 and `0x+5` gives 5, each with the
result true. -/
theorem Int64Field_sign_inside_hex :
    (NewDecoder (str "0x-5")).Int64Field = ⟨true, some (-5), ⟨[], none, []⟩⟩ ∧
    (NewDecoder (str "-0x-5")).Int64Field = ⟨true, some 5, ⟨[], none, []⟩⟩ ∧
    (NewDecoder (str "0x+5")).Int64Field = ⟨true, some 5, ⟨[], none, []⟩⟩ ∧
    (NewDecoder (str "0x-5")).Uint64Field.out = none := by
  decide

/-- The keys `Next` stores have at most 255 bytes and hold no `=`. -/
theorem Next_key_bounds (l : lineProtocolDecoder) (key : List Byte)
    (h : l.Next.out = some key) : key.length ≤ 255 ∧ B '=' ∉ key := by
  unfold lineProtocolDecoder.Next at h
  simp only [withHintError_eq] at h
  split at h
  · simp at h
  · split at h
    · simp at h
    · rename_i i hi
      split at h
      · simp at h
      · rename_i hle
        simp only [Option.some.injEq] at h
        subst h
        obtain ⟨h1, h2, _⟩ := indexByte_some _ _ i hi
        simp only [MaxKeyLength] at hle
        exact ⟨by simp; omega, h2⟩

/-- C19: on the input `=1`, whose key segment is empty, `Next` returns true
and stores the empty key. -/
theorem Next_yields_empty_key :
    (NewDecoder (str "=1")).Next = ⟨true, some [], ⟨str "1", none, []⟩⟩ ∧
    (NewQuery (str "=1")).Error = some (Error.atOffset Error.ErrBadKeyLength 1) ∧
    (NewEncoder.WriteBool [] true).Error = some (Error.keyLengthRange []) := by
  decide

theorem mapSetAll_cons (m : FieldMap) (kv : List Byte × List Byte)
    (kvs : List (List Byte × List Byte)) :
    mapSetAll m (kv :: kvs) = mapSetAll (mapSet m kv.1 kv.2) kvs := rfl

/-- The loop of `Load` from offset `off` assigns the fields that the split of
the rest of the input gives, in order, and records an error exactly when the
split fails. -/
theorem loadLoop_specSplit (s : List Byte) (fuel : Nat) :
    ∀ (off : Nat) (l : lineProtocolQuery), l.d.Err = none →
      (lineProtocolQuery.loadLoop s fuel off l).fields =
        mapSetAll l.fields (specSplit fuel (s.drop off)).1 ∧
      ((specSplit fuel (s.drop off)).2 = false →
        (lineProtocolQuery.loadLoop s fuel off l).d = l.d) ∧
      ((specSplit fuel (s.drop off)).2 = true →
        (lineProtocolQuery.loadLoop s fuel off l).d.Err ≠ none) := by
  induction fuel with
  | zero => intro off l _; simp [lineProtocolQuery.loadLoop, specSplit, mapSetAll]
  | succ fuel ih =>
    intro off l hl
    by_cases hoff : off < s.length
    · have hne : s.drop off ≠ [] := by
        intro h; rw [List.drop_eq_nil_iff] at h; omega
      rw [lineProtocolQuery.loadLoop, if_pos hoff, specSplit, if_neg hne]
      cases hi : indexByte (s.drop off) (B '=') with
      | none =>
        simp [lineProtocolQuery.hintErr, Wrapf, mapSetAll]
      | some i =>
        obtain ⟨hilt, _, _⟩ := indexByte_some _ _ i hi
        have hkl : ((s.drop off).take i).length = i := by
          rw [List.length_take]; omega
        simp only [hkl, MaxKeyLength]
        by_cases hk : i = 0 ∨ i > 255
        · rw [if_pos hk, if_pos hk]
          simp [lineProtocolQuery.hintErr, Wrapf, mapSetAll]
        · rw [if_neg hk, if_neg hk]
          have hd : s.drop (off + (i + 1)) = (s.drop off).drop (i + 1) := by
            rw [List.drop_drop]
          rw [hd]
          generalize hkey : (s.drop off).take i = key
          generalize hafter : (s.drop off).drop (i + 1) = after at hd ⊢
          cases hj : indexByte after (B ';') with
          | none =>
            have h := ih s.length ⟨l.d, mapSet l.fields key after⟩ hl
            simp only [List.drop_length] at h
            simp only [afterValue, rawValue, hj, mapSetAll_cons]
            exact h
          | some j =>
            have h := ih (off + (i + 1) + (j + 1)) ⟨l.d, mapSet l.fields key (after.take j)⟩ hl
            have hd2 : s.drop (off + (i + 1) + (j + 1)) = after.drop (j + 1) := by
              rw [← hd, List.drop_drop]
            rw [hd2] at h
            simp only [afterValue, rawValue, hj, mapSetAll_cons]
            exact h
    · have he : s.drop off = [] := by
        rw [List.drop_eq_nil_iff]; omega
      rw [lineProtocolQuery.loadLoop, if_neg hoff, he, specSplit]
      simp [mapSetAll]

theorem NewQuery_specSplit (s : List Byte) :
    (NewQuery s).fields = mapSetAll [] (specFields s) ∧
    (specSplitFails s = false → (NewQuery s).d = ⟨[], none, []⟩) ∧
    (specSplitFails s = true → (NewQuery s).d.Err ≠ none) := by
  have h := loadLoop_specSplit s s.length 0 ⟨⟨[], none, []⟩, []⟩ rfl
  simpa [NewQuery, lineProtocolQuery.Load, specFields, specSplitFails] using h

theorem mapGet_mapSet (m : FieldMap) (k0 v0 k : List Byte) :
    mapGet (mapSet m k0 v0) k = if k0 = k then some v0 else mapGet m k := by
  by_cases h : k0 = k
  · subst h; rw [if_pos rfl, mapGet_mapSet_self]
  · rw [if_neg h, mapGet_mapSet_other _ _ _ _ h]

theorem mapGet_mapSetAll (kvs : List (List Byte × List Byte)) :
    ∀ (m : FieldMap) (k : List Byte),
      mapGet (mapSetAll m kvs) k =
        match lastValue kvs k with
        | some v => some v
        | none => mapGet m k := by
  induction kvs with
  | nil => intro m k; rfl
  | cons kv kvs ih =>
    intro m k
    obtain ⟨k0, v0⟩ := kv
    rw [mapSetAll_cons, ih, lastValue]
    cases lastValue kvs k with
    | some v => rfl
    | none =>
      simp only [mapGet_mapSet]
      split <;> simp_all [mapGet]

theorem mapGet_isSome_iff (m : FieldMap) (k : List Byte) :
    (mapGet m k).isSome = true ↔ k ∈ m.map Prod.fst := by
  induction m with
  | nil => simp [mapGet]
  | cons e m ih =>
    obtain ⟨k0, v0⟩ := e
    by_cases h : k0 = k
    · simp [mapGet, h]
    · simp only [mapGet, h, if_false, ih, List.map_cons, List.mem_cons]
      constructor
      · exact Or.inr
      · rintro (h' | h')
        · exact absurd h'.symm h
        · exact h'

theorem lastValue_isSome_iff (kvs : List (List Byte × List Byte)) (k : List Byte) :
    (lastValue kvs k).isSome = true ↔ k ∈ kvs.map Prod.fst := by
  induction kvs with
  | nil => simp [lastValue]
  | cons e kvs ih =>
    obtain ⟨k0, v0⟩ := e
    simp only [lastValue, List.map_cons, List.mem_cons]
    cases hl : lastValue kvs k with
    | some v =>
      rw [hl] at ih
      simp only [Option.isSome_some, true_iff] at ih ⊢
      exact Or.inr ih
    | none =>
      rw [hl] at ih
      simp only [Option.isSome_none, Bool.false_eq_true, false_iff] at ih
      by_cases h : k0 = k
      · simp [h]
      · simp only [h, if_false, Option.isSome_none, Bool.false_eq_true, false_iff, not_or]
        exact ⟨fun e => h e.symm, ih⟩

theorem mapSet_keys (m : FieldMap) (k v k' : List Byte) :
    k' ∈ (mapSet m k v).map Prod.fst ↔ k' = k ∨ k' ∈ m.map Prod.fst := by
  rw [← mapGet_isSome_iff, ← mapGet_isSome_iff, mapGet_mapSet]
  by_cases h : k = k'
  · simp [h]
  · simp only [h, if_false]
    constructor
    · exact Or.inr
    · rintro (h' | h')
      · exact absurd h'.symm h
      · exact h'

theorem mapSet_nodup (m : FieldMap) (k v : List Byte) (h : (m.map Prod.fst).Nodup) :
    ((mapSet m k v).map Prod.fst).Nodup := by
  induction m with
  | nil => simp [mapSet]
  | cons e m ih =>
    obtain ⟨k0, v0⟩ := e
    simp only [List.map_cons, List.nodup_cons] at h
    by_cases h0 : k0 = k
    · simp only [mapSet, h0, if_true, List.map_cons, List.nodup_cons]
      rw [← h0]; exact h
    · simp only [mapSet, h0, if_false, List.map_cons, List.nodup_cons]
      refine ⟨?_, ih h.2⟩
      rw [mapSet_keys]
      rintro (h' | h')
      · exact h0 h'
      · exact h.1 h'

theorem mapSetAll_nodup (kvs : List (List Byte × List Byte)) :
    ∀ m : FieldMap, (m.map Prod.fst).Nodup → ((mapSetAll m kvs).map Prod.fst).Nodup := by
  induction kvs with
  | nil => intro m h; exact h
  | cons kv kvs ih =>
    intro m h
    rw [mapSetAll_cons]
    exact ih _ (mapSet_nodup m kv.1 kv.2 h)

theorem lookup_poisoned {α : Type} (read : lineProtocolDecoder → Read α)
    (q : lineProtocolQuery) (k : List Byte) (h : q.d.Err ≠ none) :
    lineProtocolQuery.lookup read q k = (false, none, q) := by
  simp [lineProtocolQuery.lookup, lineProtocolQuery.locate, lineProtocolQuery.RawField, h]

/-- C14: when the input has a split failure (a field segment without `=`
before the end, or with a key of length 0 or above 255), the query built on it
holds an error and every typed lookup of every key returns false, stores
nothing and leaves the query as it was. -/
theorem load_failure_poisons_lookups (s : List Byte) (h : specSplitFails s = true) :
    (NewQuery s).Error ≠ none ∧
    ∀ k : List Byte,
      (NewQuery s).BoolField k = (false, none, NewQuery s) ∧
      (NewQuery s).Int64Field k = (false, none, NewQuery s) ∧
      (NewQuery s).Uint64Field k = (false, none, NewQuery s) ∧
      (NewQuery s).StringField k = (false, none, NewQuery s) ∧
      (NewQuery s).BytesField k = (false, none, NewQuery s) ∧
      (NewQuery s).Float64Field decimalOps k = some (false, none, NewQuery s) := by
  have he := (NewQuery_specSplit s).2.2 h
  refine ⟨he, fun k => ⟨lookup_poisoned _ _ k he, lookup_poisoned _ _ k he,
    lookup_poisoned _ _ k he, lookup_poisoned _ _ k he, lookup_poisoned _ _ k he, ?_⟩⟩
  simp [lineProtocolQuery.Float64Field, lineProtocolQuery.locate, lineProtocolQuery.RawField, he]

theorem load_failure_poisons_lookups_witness :
    specSplitFails (str "k=1;k") = true ∧
    ((NewQuery (str "k=1;k")).Error ≠ none ∧
    ∀ k : List Byte,
      (NewQuery (str "k=1;k")).BoolField k = (false, none, NewQuery (str "k=1;k")) ∧
      (NewQuery (str "k=1;k")).Int64Field k = (false, none, NewQuery (str "k=1;k")) ∧
      (NewQuery (str "k=1;k")).Uint64Field k = (false, none, NewQuery (str "k=1;k")) ∧
      (NewQuery (str "k=1;k")).StringField k = (false, none, NewQuery (str "k=1;k")) ∧
      (NewQuery (str "k=1;k")).BytesField k = (false, none, NewQuery (str "k=1;k")) ∧
      (NewQuery (str "k=1;k")).Float64Field decimalOps k =
        some (false, none, NewQuery (str "k=1;k"))) :=
  ⟨by decide, load_failure_poisons_lookups (str "k=1;k") (by decide)⟩

/-- C15: when the input loads without error, it has no split failure, the map
of the query has one entry for each key of a field of the input and no other,
and the entry of a key is the raw value of the last field with that key; for
`k=1;k=0` the map is `k` to `0` and `BoolField` of `k` stores false. -/
theorem duplicate_keys_last_wins (s : List Byte) (h : (NewQuery s).Error = none) :
    specSplitFails s = false ∧
    ((NewQuery s).Fields.map Prod.fst).Nodup ∧
    (∀ k, k ∈ (NewQuery s).Fields.map Prod.fst ↔ k ∈ (specFields s).map Prod.fst) ∧
    (∀ k, mapGet (NewQuery s).Fields k = lastValue (specFields s) k) ∧
    (NewQuery (str "k=1;k=0")).Fields = [(str "k", str "0")] ∧
    ((NewQuery (str "k=1;k=0")).BoolField (str "k")).1 = true ∧
    ((NewQuery (str "k=1;k=0")).BoolField (str "k")).2.1 = some false := by
  obtain ⟨hf, _, hfail⟩ := NewQuery_specSplit s
  have hg : ∀ k, mapGet (NewQuery s).Fields k = lastValue (specFields s) k := by
    intro k
    simp only [lineProtocolQuery.Fields, hf, mapGet_mapSetAll]
    cases lastValue (specFields s) k <;> rfl
  refine ⟨?_, ?_, ?_, hg, by decide, by decide, by decide⟩
  · cases hs : specSplitFails s with
    | false => rfl
    | true => exact absurd h (hfail hs)
  · simp only [lineProtocolQuery.Fields, hf]
    exact mapSetAll_nodup _ [] (by simp)
  · intro k
    rw [← mapGet_isSome_iff, hg, lastValue_isSome_iff]

theorem duplicate_keys_last_wins_witness :
    (NewQuery (str "a=1;b=x;a=0")).Error = none ∧
    (specSplitFails (str "a=1;b=x;a=0") = false ∧
    ((NewQuery (str "a=1;b=x;a=0")).Fields.map Prod.fst).Nodup ∧
    (∀ k, k ∈ (NewQuery (str "a=1;b=x;a=0")).Fields.map Prod.fst ↔
      k ∈ (specFields (str "a=1;b=x;a=0")).map Prod.fst) ∧
    (∀ k, mapGet (NewQuery (str "a=1;b=x;a=0")).Fields k =
      lastValue (specFields (str "a=1;b=x;a=0")) k) ∧
    (NewQuery (str "k=1;k=0")).Fields = [(str "k", str "0")] ∧
    ((NewQuery (str "k=1;k=0")).BoolField (str "k")).1 = true ∧
    ((NewQuery (str "k=1;k=0")).BoolField (str "k")).2.1 = some false) :=
  ⟨by decide, duplicate_keys_last_wins (str "a=1;b=x;a=0") (by decide)⟩

theorem afterValue_length (v : List Byte) : (afterValue v).length ≤ v.length := by
  unfold afterValue
  split
  · simp only [List.length_drop]; omega
  · simp

/-- More fuel than the length of the input does not change the split. -/
theorem specSplit_fuel (fuel : Nat) :
    ∀ rest : List Byte, rest.length ≤ fuel → specSplit (fuel + 1) rest = specSplit fuel rest := by
  induction fuel with
  | zero =>
    intro rest h
    have : rest = [] := List.eq_nil_of_length_eq_zero (by omega)
    subst this
    simp [specSplit]
  | succ fuel ih =>
    intro rest h
    rw [specSplit, specSplit]
    split
    · rfl
    · cases hi : indexByte rest (B '=') with
      | none => rfl
      | some i =>
        simp only []
        split
        · rfl
        · have hl : (afterValue (rest.drop (i + 1))).length ≤ fuel := by
            have := afterValue_length (rest.drop (i + 1))
            simp only [List.length_drop] at this
            obtain ⟨hilt, _, _⟩ := indexByte_some _ _ i hi
            omega
          rw [ih _ hl]

/-- More fuel than the bytes left does not change the loop of `Load`: the fuel
`len(s)` is never used up. -/
theorem loadLoop_fuel (s : List Byte) (fuel : Nat) :
    ∀ (off : Nat) (l : lineProtocolQuery), s.length - off ≤ fuel →
      lineProtocolQuery.loadLoop s (fuel + 1) off l = lineProtocolQuery.loadLoop s fuel off l := by
  induction fuel with
  | zero =>
    intro off l h
    rw [loadLoop_end s 1 off l (by omega), loadLoop_end s 0 off l (by omega)]
  | succ fuel ih =>
    intro off l h
    rw [lineProtocolQuery.loadLoop, lineProtocolQuery.loadLoop]
    split
    · cases hi : indexByte (s.drop off) (B '=') with
      | none => rfl
      | some i =>
        simp only []
        split
        · rfl
        · cases hj : indexByte (s.drop (off + (i + 1))) (B ';') with
          | none =>
            simp only []
            rw [ih _ _ (by omega)]
          | some j =>
            simp only []
            rw [ih _ _ (by omega)]
    · rfl

theorem indexByte_eq_none (s : List Byte) (c : Byte) (h : indexByte s c = none) : c ∉ s := by
  induction s with
  | nil => simp
  | cons x xs ih =>
    by_cases hx : x = c
    · simp [indexByte, hx] at h
    · simp only [indexByte, hx, if_false, Option.map_eq_none'] at h
      simp only [List.mem_cons, not_or]
      exact ⟨fun e => hx e.symm, ih h⟩

theorem rawValue_no_semicolon (v : List Byte) : (59 : Byte) ∉ rawValue v := by
  unfold rawValue
  rw [B_semicolon]
  cases h : indexByte v 59 with
  | none => exact indexByte_eq_none v 59 h
  | some j => exact (indexByte_some v 59 j h).2.1

theorem specSplit_values (fuel : Nat) :
    ∀ rest : List Byte, ∀ kv ∈ (specSplit fuel rest).1, (59 : Byte) ∉ kv.2 := by
  induction fuel with
  | zero => intro rest kv h; simp [specSplit] at h
  | succ fuel ih =>
    intro rest kv h
    rw [specSplit] at h
    split at h
    · simp at h
    · cases hi : indexByte rest (B '=') with
      | none => simp [hi] at h
      | some i =>
        simp only [hi] at h
        split at h
        · simp at h
        · simp only [List.mem_cons] at h
          rcases h with rfl | h
          · exact rawValue_no_semicolon _
          · exact ih _ kv h

theorem lastValue_mem (kvs : List (List Byte × List Byte)) (k v : List Byte)
    (h : lastValue kvs k = some v) : (k, v) ∈ kvs := by
  induction kvs with
  | nil => simp [lastValue] at h
  | cons e kvs ih =>
    obtain ⟨k0, v0⟩ := e
    simp only [lastValue] at h
    cases hl : lastValue kvs k with
    | some w =>
      rw [hl] at h
      simp only [Option.some.injEq] at h
      subst h
      exact List.mem_cons_of_mem _ (ih hl)
    | none =>
      rw [hl] at h
      by_cases h0 : k0 = k
      · simp only [h0, if_true, Option.some.injEq] at h
        subst h; subst h0
        exact List.mem_cons_self _ _
      · simp [h0] at h

/-- The raw values of a query built by `NewQuery` hold no `;`. -/
theorem NewQuery_raw_no_semicolon (s k raw : List Byte)
    (h : mapGet (NewQuery s).Fields k = some raw) : (59 : Byte) ∉ raw := by
  have hf := (NewQuery_specSplit s).1
  simp only [lineProtocolQuery.Fields, hf, mapGet_mapSetAll] at h
  cases hl : lastValue (specFields s) k with
  | none => rw [hl] at h; simp [mapGet] at h
  | some v =>
    rw [hl] at h
    simp only [Option.some.injEq] at h
    subst h
    exact specSplit_values _ _ _ (lastValue_mem _ _ _ hl)

theorem lookup_located {α : Type} (read : lineProtocolDecoder → Read α)
    (q : lineProtocolQuery) (k raw : List Byte) (he : q.d.Err = none)
    (hraw : mapGet q.fields k = some raw) :
    lineProtocolQuery.lookup read q k =
      (if (read ⟨raw, none, k⟩).ok = false then
        (false, (read ⟨raw, none, k⟩).out, ⟨(read ⟨raw, none, k⟩).dec, q.fields⟩)
      else
        (decide ((read ⟨raw, none, k⟩).dec.reading = []), (read ⟨raw, none, k⟩).out,
          ⟨(read ⟨raw, none, k⟩).dec, q.fields⟩)) := by
  have hloc : q.locate k = (true, ⟨⟨raw, none, k⟩, q.fields⟩) := by
    simp [lineProtocolQuery.locate, lineProtocolQuery.RawField, he, hraw]
  simp only [lineProtocolQuery.lookup, hloc, lineProtocolQuery.terminated]
  cases hok : (read ⟨raw, none, k⟩).ok
  · simp
  · cases hr : (read ⟨raw, none, k⟩).dec.reading <;> simp

/-- A typed lookup whose read leaves input behind returns false. -/
theorem lookup_false_of_rest {α : Type} (read : lineProtocolDecoder → Read α)
    (q : lineProtocolQuery) (k raw : List Byte) (hraw : mapGet q.fields k = some raw)
    (h : (read ⟨raw, none, k⟩).dec.reading ≠ []) :
    (lineProtocolQuery.lookup read q k).1 = false := by
  by_cases he : q.d.Err = none
  · rw [lookup_located read q k raw he hraw]
    split
    · rfl
    · simp [h]
  · rw [lookup_poisoned read q k he]

/-- A typed lookup that returns true has consumed the whole raw value. -/
theorem lookup_true_consumed {α : Type} (read : lineProtocolDecoder → Read α)
    (q : lineProtocolQuery) (k : List Byte)
    (h : (lineProtocolQuery.lookup read q k).1 = true) :
    (lineProtocolQuery.lookup read q k).2.2.d.reading = [] := by
  by_cases he : q.d.Err = none
  · cases hraw : mapGet q.fields k with
    | none =>
      simp [lineProtocolQuery.lookup, lineProtocolQuery.locate, lineProtocolQuery.RawField, he,
        hraw] at h
    | some raw =>
      rw [lookup_located read q k raw he hraw] at h ⊢
      split at h
      · simp at h
      · rename_i hok
        rw [if_neg hok]
        simpa using h
  · rw [lookup_poisoned read q k he] at h
    simp at h

theorem BoolField_rest (c x : Byte) (rest k : List Byte) (hc : c = B '0' ∨ c = B '1')
    (hx : x ≠ 59) :
    (⟨c :: x :: rest, none, k⟩ : lineProtocolDecoder).BoolField.dec.reading = x :: rest := by
  have hc' : c = B '1' ∨ c = B '0' := hc.symm
  simp [lineProtocolDecoder.BoolField, hc', lineProtocolDecoder.eatOptionalComma, B_semicolon, hx,
    withHintError_eq]

theorem StringField_dec (l : lineProtocolDecoder) :
    l.StringField.dec = (l.bytesField (B '"')).2.2 := by
  unfold lineProtocolDecoder.StringField
  simp only [withHintError_eq]
  split <;> rfl

theorem BytesField_dec (l : lineProtocolDecoder) :
    l.BytesField.dec = (l.bytesField 39).2.2 := by
  unfold lineProtocolDecoder.BytesField
  simp only [withHintError_eq]
  split <;> rfl

/-- After a quoted token that is followed by a byte other than `;`,
`bytesField` leaves input behind. -/
theorem bytesField_rest (hint payload rest k : List Byte) (q x : Byte)
    (hh : hint = [] ∨ hint = [B 'h'] ∨ hint = [B 'b']) (hq : q = 34 ∨ q = 39)
    (hp : q ∉ payload) (hx : x ≠ 59) :
    ((⟨hint ++ q :: payload ++ q :: x :: rest, none, k⟩ : lineProtocolDecoder).bytesField
      q).2.2.reading ≠ [] := by
  have hq1 : q ≠ 104 ∧ q ≠ 98 := by
    rcases hq with rfl | rfl <;> decide
  have hi := indexByte_append_cons payload (x :: rest) q hp
  rcases hh with rfl | rfl | rfl
  · simp [lineProtocolDecoder.bytesField, B_h, B_b, hq1.1, hq1.2, hasPrefix, hi,
      lineProtocolDecoder.eatOptionalComma, B_semicolon, hx, withHintError_eq]
  · simp only [lineProtocolDecoder.bytesField, B_h, B_b, hasPrefix, withHintError_eq,
      lineProtocolDecoder.eatOptionalComma, B_semicolon]
    simp [hi, hx, show ((104 : Byte) : Nat) = 104 from rfl]
    split <;> simp
  · simp only [lineProtocolDecoder.bytesField, B_h, B_b, hasPrefix, withHintError_eq,
      lineProtocolDecoder.eatOptionalComma, B_semicolon]
    simp [hi, hx, show ((104 : Byte) : Nat) = 104 from rfl, show ((98 : Byte) : Nat) = 98 from rfl]
    split <;> simp

set_option maxRecDepth 100000 in
theorem digitVal_nonhex : ∀ c : Byte, isHexDigit c = false →
    (match digitVal c with
      | none => true
      | some d => decide (d ≥ 16)) = true := by
  decide

theorem parseUintLoop_nonhex (c : Byte) (rest : List Byte) (hc : isHexDigit c = false)
    (ds : List Byte) : ∀ n, (parseUintLoop (ds ++ c :: rest) n).2 ≠ none := by
  induction ds with
  | nil =>
    intro n
    have h := digitVal_nonhex c hc
    simp only [List.nil_append, parseUintLoop]
    cases hd : digitVal c with
    | none => simp
    | some d =>
      rw [hd] at h
      simp only [decide_eq_true_eq] at h
      simp [h]
  | cons x ds ih =>
    intro n
    simp only [List.cons_append, parseUintLoop]
    cases hd : digitVal x with
    | none => simp
    | some d =>
      simp only []
      repeat' split
      all_goals first | exact ih _ | simp

theorem parseUintLoop_range (s : List Byte) :
    ∀ n, (parseUintLoop s n).2 = some Error.numRange → (parseUintLoop s n).1 = 2 ^ 64 - 1 := by
  induction s with
  | nil => intro n h; simp [parseUintLoop] at h
  | cons x xs ih =>
    intro n h
    rw [parseUintLoop] at h ⊢
    cases hd : digitVal x with
    | none => rw [hd] at h; simp at h
    | some d =>
      rw [hd] at h
      simp only [] at h ⊢
      by_cases h1 : d ≥ 16
      · rw [if_pos h1] at h; simp at h
      · rw [if_neg h1] at h ⊢
        by_cases h2 : n ≥ (2 ^ 64 - 1) / 16 + 1
        · rw [if_pos h2]
        · rw [if_neg h2] at h ⊢
          by_cases h3 : (n * 16 % 2 ^ 64 + d) % 2 ^ 64 < n * 16 % 2 ^ 64 ∨
              (n * 16 % 2 ^ 64 + d) % 2 ^ 64 > 2 ^ 64 - 1
          · rw [if_pos h3]
          · rw [if_neg h3] at h ⊢
            exact ih _ h

theorem ParseUint_nonhex (c : Byte) (rest ds : List Byte) (hc : isHexDigit c = false) :
    (ParseUint (ds ++ c :: rest)).2 ≠ none ∧
    ((ParseUint (ds ++ c :: rest)).2 = some Error.numRange →
      (ParseUint (ds ++ c :: rest)).1 = 2 ^ 64 - 1) := by
  have hne : ds ++ c :: rest ≠ [] := by simp
  simp only [ParseUint, if_neg hne]
  exact ⟨parseUintLoop_nonhex c rest hc ds 0, parseUintLoop_range _ 0⟩

theorem ParseInt_err (un : Nat) (err : Option Error) (neg : Bool) (res : Int × Option Error)
    (h1 : err ≠ none) (h2 : err = some Error.numRange → un = 2 ^ 64 - 1)
    (hres : res = if err ≠ none ∧ err ≠ some Error.numRange then (0, err)
      else if !neg ∧ un ≥ 2 ^ 63 then (2 ^ 63 - 1, some Error.numRange)
      else if neg ∧ un > 2 ^ 63 then (-(2 ^ 63), some Error.numRange)
      else (if neg then wrapInt64 (-(toInt64 un)) else toInt64 un, none)) :
    res.2 ≠ none := by
  subst hres
  by_cases hr : err = some Error.numRange
  · have hu := h2 hr
    subst hu
    rw [if_neg (by simp [hr])]
    cases neg
    · rw [if_pos (by simp)]; simp
    · rw [if_neg (by simp), if_pos (by simp)]; simp
  · rw [if_pos ⟨h1, hr⟩]; exact h1

/-- `ParseInt` fails on a text with a byte that is not a hex digit after its
first byte. -/
theorem ParseInt_nonhex (c d0 : Byte) (rest ds : List Byte) (hc : isHexDigit c = false) :
    (ParseInt (d0 :: ds ++ c :: rest)).2 ≠ none := by
  have ha := ParseUint_nonhex c rest ds hc
  have hb := ParseUint_nonhex c rest (d0 :: ds) hc
  simp only [List.cons_append] at hb ⊢
  simp only [ParseInt]
  by_cases hp : d0 = B '+'
  · simp only [hp, if_true]
    exact ParseInt_err _ _ _ _ ha.1 ha.2 rfl
  · by_cases hm : d0 = B '-'
    · simp only [hm, if_true, if_neg (show ¬ (B '-' = B '+') by decide)]
      exact ParseInt_err _ _ _ _ ha.1 ha.2 rfl
    · simp only [if_neg hp, if_neg hm]
      exact ParseInt_err _ _ _ _ hb.1 hb.2 rfl

theorem Int64Field_rest_of_err (sign R k : List Byte) (hs : sign = [] ∨ sign = [B '-'])
    (hR : R ≠ []) (hn : (59 : Byte) ∉ R) (hP : (ParseInt R).2 ≠ none) :
    (⟨sign ++ str "0x" ++ R, none, k⟩ : lineProtocolDecoder).Int64Field.dec.reading ≠ [] := by
  have hi := indexByte_none _ 59 hn
  rcases hs with rfl | rfl
  · simp [lineProtocolDecoder.Int64Field, str_0x, hasPrefix, B_minus, B_semicolon, hi, hP,
      withHintError_eq, hR]
  · simp [lineProtocolDecoder.Int64Field, str_0x, hasPrefix, B_minus, B_semicolon, hi, hP,
      withHintError_eq, hR]

theorem Uint64Field_rest_of_err (R k : List Byte) (hR : R ≠ []) (hn : (59 : Byte) ∉ R)
    (hP : (ParseUint R).2 ≠ none) :
    (⟨str "0x" ++ R, none, k⟩ : lineProtocolDecoder).Uint64Field.dec.reading ≠ [] := by
  have hi := indexByte_none _ 59 hn
  simp [lineProtocolDecoder.Uint64Field, str_0x, hasPrefix, B_semicolon, hi, hP,
    withHintError_eq, hR]

/-- C13: in a query whose map is the one `NewQuery` built, a typed lookup
returns false when the raw value of the key is a bool token, a quoted string
or bytes token (with or without hint) followed by at least one more byte, or
`0x` and at least one byte followed by a byte that is not a hex digit; and
whenever a typed lookup returns true the decoder has no input left. -/
theorem lookup_requires_whole_value (s : List Byte) (q : lineProtocolQuery) (k raw : List Byte)
    (hq : q.Fields = (NewQuery s).Fields) (hraw : mapGet q.Fields k = some raw) :
    (∀ c x rest, (c = B '0' ∨ c = B '1') → raw = c :: x :: rest → (q.BoolField k).1 = false) ∧
    (∀ hint payload x rest, (hint = [] ∨ hint = [B 'h'] ∨ hint = [B 'b']) → B '"' ∉ payload →
      raw = hint ++ B '"' :: payload ++ B '"' :: x :: rest → (q.StringField k).1 = false) ∧
    (∀ hint payload x rest, (hint = [] ∨ hint = [B 'h'] ∨ hint = [B 'b']) → (39 : Byte) ∉ payload →
      raw = hint ++ 39 :: payload ++ 39 :: x :: rest → (q.BytesField k).1 = false) ∧
    (∀ sign ds c rest, (sign = [] ∨ sign = [B '-']) → ds ≠ [] → isHexDigit c = false →
      raw = sign ++ str "0x" ++ (ds ++ c :: rest) → (q.Int64Field k).1 = false) ∧
    (∀ ds c rest, ds ≠ [] → isHexDigit c = false →
      raw = str "0x" ++ (ds ++ c :: rest) → (q.Uint64Field k).1 = false) ∧
    ((q.BoolField k).1 = true → (q.BoolField k).2.2.d.reading = []) ∧
    ((q.StringField k).1 = true → (q.StringField k).2.2.d.reading = []) ∧
    ((q.BytesField k).1 = true → (q.BytesField k).2.2.d.reading = []) ∧
    ((q.Int64Field k).1 = true → (q.Int64Field k).2.2.d.reading = []) ∧
    ((q.Uint64Field k).1 = true → (q.Uint64Field k).2.2.d.reading = []) := by
  have hns : (59 : Byte) ∉ raw := NewQuery_raw_no_semicolon s k raw (hq ▸ hraw)
  have hraw' : mapGet q.fields k = some raw := hraw
  refine ⟨?_, ?_, ?_, ?_, ?_, lookup_true_consumed _ q k, lookup_true_consumed _ q k,
    lookup_true_consumed _ q k, lookup_true_consumed _ q k, lookup_true_consumed _ q k⟩
  · intro c x rest hc hr
    subst hr
    have hx : x ≠ 59 := fun e => hns (by simp [e])
    apply lookup_false_of_rest _ q k _ hraw'
    rw [BoolField_rest c x rest k hc hx]
    simp
  · intro hint payload x rest hh hp hr
    subst hr
    have hx : x ≠ 59 := fun e => hns (by simp [e])
    apply lookup_false_of_rest _ q k _ hraw'
    rw [StringField_dec]
    exact bytesField_rest hint payload rest k (B '"') x hh (Or.inl (by decide)) hp hx
  · intro hint payload x rest hh hp hr
    subst hr
    have hx : x ≠ 59 := fun e => hns (by simp [e])
    apply lookup_false_of_rest _ q k _ hraw'
    rw [BytesField_dec]
    exact bytesField_rest hint payload rest k 39 x hh (Or.inr rfl) hp hx
  · intro sign ds c rest hs hds hc hr
    subst hr
    obtain ⟨d0, ds', rfl⟩ := List.exists_cons_of_ne_nil hds
    have hn : (59 : Byte) ∉ d0 :: ds' ++ c :: rest := fun h => hns (by simp at h ⊢; tauto)
    apply lookup_false_of_rest _ q k _ hraw'
    exact Int64Field_rest_of_err sign _ k hs (by simp) hn (ParseInt_nonhex c d0 rest ds' hc)
  · intro ds c rest hds hc hr
    subst hr
    have hn : (59 : Byte) ∉ ds ++ c :: rest := fun h => hns (by simp at h ⊢; tauto)
    apply lookup_false_of_rest _ q k _ hraw'
    exact Uint64Field_rest_of_err _ k (by simp) hn (ParseUint_nonhex c rest ds hc).1

theorem lookup_requires_whole_value_witness :
    ((NewQuery (str "k=1x;s=\"ab\"x;i=-0x1fz")).Fields =
        (NewQuery (str "k=1x;s=\"ab\"x;i=-0x1fz")).Fields ∧
      mapGet (NewQuery (str "k=1x;s=\"ab\"x;i=-0x1fz")).Fields (str "k") = some (str "1x") ∧
      mapGet (NewQuery (str "k=1x;s=\"ab\"x;i=-0x1fz")).Fields (str "s") =
        some (str "\"ab\"x") ∧
      mapGet (NewQuery (str "k=1x;s=\"ab\"x;i=-0x1fz")).Fields (str "i") =
        some (str "-0x1fz")) ∧
    ((NewQuery (str "k=1x;s=\"ab\"x;i=-0x1fz")).BoolField (str "k")).1 = false ∧
    ((NewQuery (str "k=1x;s=\"ab\"x;i=-0x1fz")).StringField (str "s")).1 = false ∧
    ((NewQuery (str "k=1x;s=\"ab\"x;i=-0x1fz")).Int64Field (str "i")).1 = false :=
  ⟨⟨rfl, by decide, by decide, by decide⟩,
    (lookup_requires_whole_value (str "k=1x;s=\"ab\"x;i=-0x1fz") _ (str "k") (str "1x") rfl
      (by decide)).1 (B '1') (B 'x') [] (Or.inr rfl) (by decide),
    (lookup_requires_whole_value (str "k=1x;s=\"ab\"x;i=-0x1fz") _ (str "s") (str "\"ab\"x") rfl
      (by decide)).2.1 [] (str "ab") (B 'x') [] (Or.inl rfl) (by decide) (by decide),
    (lookup_requires_whole_value (str "k=1x;s=\"ab\"x;i=-0x1fz") _ (str "i") (str "-0x1fz") rfl
      (by decide)).2.2.2.1 [B '-'] (str "1f") (B 'z') [] (Or.inr rfl) (by decide) (by decide)
      (by decide)⟩

/-- On a decoder without error, `Float64Field` panics exactly when the input,
after an optional leading `-`, is the single byte `f`. -/
theorem Float64Field_panics_iff {F : Type} (ops : FloatOps F) (l : lineProtocolDecoder)
    (hl : l.Err = none) :
    l.Float64Field ops = none ↔ (l.reading = str "f" ∨ l.reading = str "-f") := by
  obtain ⟨reading, err, lf⟩ := l
  simp only at hl
  subst hl
  have e1 : str "-f" = [45, 102] := by decide
  simp only [lineProtocolDecoder.Float64Field, str_f, e1, hasPrefix, B_minus, B_semicolon,
    withHintError_eq]
  match reading with
  | [] => simp
  | [c] =>
    by_cases hc : c = 45
    · subst hc; simp
    · by_cases hf : c = 102
      · subst hf; simp
      · simp [hc, hf]
  | c :: d :: rest =>
    by_cases hc : c = 45
    · subst hc
      by_cases hd : d = 102
      · subst hd
        cases rest with
        | nil => simp
        | cons x xs =>
          simp
          repeat' split
          all_goals simp
      · simp [hd]
    · by_cases hf : c = 102
      · subst hf
        simp
        repeat' split
        all_goals simp
      · simp [hc, hf]

/-- C21: on the one-byte input `f` and the two-byte input `-f`,
`Float64Field` does not return: the slice `l.reading[2:]`, taken after the
marker `f` of one byte is found, is out of range, for every float library;
the lookup `Float64Field` of the query of `k=f` fails the same way. -/
theorem Float64Field_slice_out_of_range :
    ∀ (F : Type) (ops : FloatOps F),
      (NewDecoder (str "f")).Float64Field ops = none ∧
      (NewDecoder (str "-f")).Float64Field ops = none ∧
      (NewQuery (str "k=f")).Float64Field ops (str "k") = none ∧
      (NewQuery (str "k=-f")).Float64Field ops (str "k") = none := by
  intro F ops
  have h1 : (NewDecoder (str "f")).Float64Field ops = none :=
    (Float64Field_panics_iff ops _ rfl).mpr (Or.inl rfl)
  have h2 : (NewDecoder (str "-f")).Float64Field ops = none :=
    (Float64Field_panics_iff ops _ rfl).mpr (Or.inr rfl)
  have q1 : (NewQuery (str "k=f")).locate (str "k") =
      (true, ⟨⟨str "f", none, str "k"⟩, [(str "k", str "f")]⟩) := by decide
  have q2 : (NewQuery (str "k=-f")).locate (str "k") =
      (true, ⟨⟨str "-f", none, str "k"⟩, [(str "k", str "-f")]⟩) := by decide
  have h3 : (⟨str "f", none, str "k"⟩ : lineProtocolDecoder).Float64Field ops = none :=
    (Float64Field_panics_iff ops _ rfl).mpr (Or.inl rfl)
  have h4 : (⟨str "-f", none, str "k"⟩ : lineProtocolDecoder).Float64Field ops = none :=
    (Float64Field_panics_iff ops _ rfl).mpr (Or.inr rfl)
  refine ⟨h1, h2, ?_, ?_⟩
  · simp only [lineProtocolQuery.Float64Field, q1, h3]
    rfl
  · simp only [lineProtocolQuery.Float64Field, q2, h4]
    rfl

/-- The decoder's typed read of a value's type, on the value's token alone,
returns true, stores the value and leaves no input. -/
theorem read_token_alone (v : Value) (hv : v.wellTyped) (key : List Byte) :
    v.kind.read ⟨(v.call : WriteCall Decimal).token decimalOps, none, key⟩ =
      ⟨true, some v, ⟨[], none, key⟩⟩ := by
  have h := read_token v hv [] key (Or.inl rfl)
  simpa using h

theorem read_eq_of_map {α : Type} (r : Read α) (f : α → Value) (a : α)
    (d : lineProtocolDecoder) (hf : ∀ x y, f x = f y → x = y)
    (h : (⟨r.ok, r.out.map f, r.dec⟩ : Read Value) = ⟨true, some (f a), d⟩) :
    r = ⟨true, some a, d⟩ := by
  obtain ⟨ok, out, dec⟩ := r
  simp only [Read.mk.injEq] at h ⊢
  obtain ⟨h1, h2, h3⟩ := h
  refine ⟨h1, ?_, h3⟩
  cases out with
  | none => simp at h2
  | some x => simp only [Option.map_some', Option.some.injEq] at h2; rw [hf x a h2]

/-- A typed lookup of the query, on a key whose raw value is the token of a
value of that type, returns true and stores the value. -/
theorem lookup_token {α : Type} (read : lineProtocolDecoder → Read α) (a : α)
    (q : lineProtocolQuery) (key raw : List Byte) (he : q.d.Err = none)
    (hg : mapGet q.fields key = some raw)
    (hr : read ⟨raw, none, key⟩ = ⟨true, some a, ⟨[], none, key⟩⟩) :
    lineProtocolQuery.lookup read q key = (true, some a, ⟨⟨[], none, key⟩, q.fields⟩) := by
  rw [lookup_located read q key raw he hg, hr]
  simp

/-- The five typed lookups of the query on the token of a value. -/
theorem lookup_value (v : Value) (hv : v.wellTyped) (q : lineProtocolQuery) (key : List Byte)
    (he : q.d.Err = none)
    (hg : mapGet q.fields key = some ((v.call : WriteCall Decimal).token decimalOps)) :
    (∀ s, v = Value.string s →
      q.StringField key = (true, some s, ⟨⟨[], none, key⟩, q.fields⟩)) ∧
    (∀ ui, v = Value.uint ui →
      q.Uint64Field key = (true, some ui, ⟨⟨[], none, key⟩, q.fields⟩)) ∧
    (∀ i, v = Value.int i →
      q.Int64Field key = (true, some i, ⟨⟨[], none, key⟩, q.fields⟩)) ∧
    (∀ b, v = Value.bool b →
      q.BoolField key = (true, some b, ⟨⟨[], none, key⟩, q.fields⟩)) ∧
    (∀ s, v = Value.bytes s →
      q.BytesField key = (true, some s, ⟨⟨[], none, key⟩, q.fields⟩)) ∧
    v.kind.lookup q key = (true, some v, ⟨⟨[], none, key⟩, q.fields⟩) := by
  have h := read_token_alone v hv key
  cases v with
  | string s =>
    have hr := read_eq_of_map _ Value.string s _ (fun x y e => by injection e) h
    have hl := lookup_token lineProtocolDecoder.StringField s q key _ he hg hr
    refine ⟨?_, ?_, ?_, ?_, ?_, ?_⟩
    · intro x e; injection e with e; subst e; exact hl
    · intro x e; cases e
    · intro x e; cases e
    · intro x e; cases e
    · intro x e; cases e
    · simp [Value.kind, Kind.lookup, lineProtocolQuery.StringField, hl]
  | uint ui =>
    have hr := read_eq_of_map _ Value.uint ui _ (fun x y e => by injection e) h
    have hl := lookup_token lineProtocolDecoder.Uint64Field ui q key _ he hg hr
    refine ⟨?_, ?_, ?_, ?_, ?_, ?_⟩
    · intro x e; cases e
    · intro x e; injection e with e; subst e; exact hl
    · intro x e; cases e
    · intro x e; cases e
    · intro x e; cases e
    · simp [Value.kind, Kind.lookup, lineProtocolQuery.Uint64Field, hl]
  | int i =>
    have hr := read_eq_of_map _ Value.int i _ (fun x y e => by injection e) h
    have hl := lookup_token lineProtocolDecoder.Int64Field i q key _ he hg hr
    refine ⟨?_, ?_, ?_, ?_, ?_, ?_⟩
    · intro x e; cases e
    · intro x e; cases e
    · intro x e; injection e with e; subst e; exact hl
    · intro x e; cases e
    · intro x e; cases e
    · simp [Value.kind, Kind.lookup, lineProtocolQuery.Int64Field, hl]
  | bool b =>
    have hr := read_eq_of_map _ Value.bool b _ (fun x y e => by injection e) h
    have hl := lookup_token lineProtocolDecoder.BoolField b q key _ he hg hr
    refine ⟨?_, ?_, ?_, ?_, ?_, ?_⟩
    · intro x e; cases e
    · intro x e; cases e
    · intro x e; cases e
    · intro x e; injection e with e; subst e; exact hl
    · intro x e; cases e
    · simp [Value.kind, Kind.lookup, lineProtocolQuery.BoolField, hl]
  | bytes s =>
    have hr := read_eq_of_map _ Value.bytes s _ (fun x y e => by injection e) h
    have hl := lookup_token lineProtocolDecoder.BytesField s q key _ he hg hr
    refine ⟨?_, ?_, ?_, ?_, ?_, ?_⟩
    · intro x e; cases e
    · intro x e; cases e
    · intro x e; cases e
    · intro x e; cases e
    · intro x e; injection e with e; subst e; exact hl
    · simp [Value.kind, Kind.lookup, lineProtocolQuery.BytesField, hl]

/-- C2: for fields with pairwise distinct valid keys and values of type bool,
int64, uint64, string or bytes, the query built on the encoded record has no
error and as many entries as fields were written, and in every state the
lookups can lead to, the lookup method of each written field's type
(`StringField`, `Uint64Field`, `Int64Field`, `BoolField`, `BytesField`) on
its key returns true and stores the written value. -/
theorem encode_query_round_trip (fs : List (List Byte × Value))
    (h : ∀ f ∈ fs, validKey f.1 ∧ f.2.wellTyped) (hd : (fs.map Prod.fst).Nodup) :
    ∃ s, (encodeFields NewEncoder fs).Final = Except.ok s ∧
      (NewQuery s).Error = none ∧ (NewQuery s).Fields.length = fs.length ∧
      ∀ q : lineProtocolQuery, q.Fields = (NewQuery s).Fields → q.Error = none →
        ∀ f ∈ fs, ∃ q',
          (match f.2 with
            | Value.string v => q.StringField f.1 = (true, some v, q')
            | Value.uint v => q.Uint64Field f.1 = (true, some v, q')
            | Value.int v => q.Int64Field f.1 = (true, some v, q')
            | Value.bool v => q.BoolField f.1 = (true, some v, q')
            | Value.bytes v => q.BytesField f.1 = (true, some v, q')) ∧
          f.2.kind.lookup q f.1 = (true, some f.2, q') ∧
          q'.Fields = (NewQuery s).Fields ∧ q'.Error = none := by
  have hk : (rawOf fs).map Prod.fst = fs.map Prod.fst := by
    simp [rawOf, List.map_map, Function.comp_def]
  refine ⟨recordText decimalOps (callsOf fs), encodeFields_final fs h, ?_, ?_, ?_⟩
  · rw [NewQuery_record fs h]; rfl
  · rw [NewQuery_record fs h]
    have := mapSetAll_length (rawOf fs) [] (hk ▸ hd) (fun k _ => rfl)
    simpa [lineProtocolQuery.Fields, rawOf] using this
  · intro q hq he f hf
    rw [NewQuery_record fs h] at hq ⊢
    simp only [lineProtocolQuery.Fields] at hq
    have hm : (f.1, (f.2.call : WriteCall Decimal).token decimalOps) ∈ rawOf fs :=
      List.mem_map.mpr ⟨f, hf, rfl⟩
    have hg := mapSetAll_get (rawOf fs) [] (hk ▸ hd) _ hm
    rw [← hq] at hg
    obtain ⟨h1, h2, h3, h4, h5, h6⟩ := lookup_value f.2 (h f hf).2 q f.1 he hg
    obtain ⟨key, v⟩ := f
    cases v with
    | string s => exact ⟨_, h1 s rfl, h6, hq, rfl⟩
    | uint ui => exact ⟨_, h2 ui rfl, h6, hq, rfl⟩
    | int i => exact ⟨_, h3 i rfl, h6, hq, rfl⟩
    | bool b => exact ⟨_, h4 b rfl, h6, hq, rfl⟩
    | bytes s => exact ⟨_, h5 s rfl, h6, hq, rfl⟩

theorem encode_query_round_trip_witness :
    ((∀ f ∈ sampleFields, validKey f.1 ∧ f.2.wellTyped) ∧
      (sampleFields.map Prod.fst).Nodup) ∧
    ∃ s, (encodeFields NewEncoder sampleFields).Final = Except.ok s ∧
      (NewQuery s).Error = none ∧ (NewQuery s).Fields.length = sampleFields.length ∧
      ∀ q : lineProtocolQuery, q.Fields = (NewQuery s).Fields → q.Error = none →
        ∀ f ∈ sampleFields, ∃ q',
          (match f.2 with
            | Value.string v => q.StringField f.1 = (true, some v, q')
            | Value.uint v => q.Uint64Field f.1 = (true, some v, q')
            | Value.int v => q.Int64Field f.1 = (true, some v, q')
            | Value.bool v => q.BoolField f.1 = (true, some v, q')
            | Value.bytes v => q.BytesField f.1 = (true, some v, q')) ∧
          f.2.kind.lookup q f.1 = (true, some f.2, q') ∧
          q'.Fields = (NewQuery s).Fields ∧ q'.Error = none :=
  ⟨⟨by decide, by decide⟩, encode_query_round_trip sampleFields (by decide) (by decide)⟩

end LineProtocol
